import Mathlib

/-!
Verification of the BPE trainer (`src/cs336_basics/bpe.py`) and tokenizer
(`src/cs336_basics/tokenizer.py`).

Shallow embedding conventions:
* Python strings are lists of Unicode code points (`List Nat`);
  byte strings are lists of byte values (`List Nat`, each `< 256`).
* Python `dict`s / `Counter`s are association lists in insertion order
  (`List (key × value)`); `addCount` mirrors `counter[k] += v` and
  `setAssoc` mirrors `d[k] = v` (update in place, append if new).
* `\p{L}`, `\p{N}` and `\s` of the `regex` module are modelled on the
  ASCII range (the full Unicode tables are out of scope); every concrete
  input appearing in this file is ASCII, and the quantified theorems
  below use these character classes only through the fact that together
  with the "other" class they cover every code point.
* Fallible operations (Python `KeyError`) return `Option`.
* Loops whose bound is data dependent take explicit fuel chosen at the
  call site (always a value that dominates the loop, proved sufficient
  in the lemmas), so that every definition is executable by `decide`.
-/

namespace BPE

/-- Python `counter[k] += v` on an insertion-ordered association list
(Python `Counter` / `dict` update semantics: existing key updated in
place, new key appended at the end). -/
def addCount {α : Type} [DecidableEq α] : List (α × Nat) → α → Nat → List (α × Nat)
  | [], k, v => [(k, v)]
  | (k', v') :: rest, k, v =>
    if k' = k then (k', v' + v) :: rest else (k', v') :: addCount rest k v

/-- Python `d[k] = v` on an insertion-ordered association list. -/
def setAssoc {α β : Type} [DecidableEq α] : List (α × β) → α → β → List (α × β)
  | [], k, v => [(k, v)]
  | (k', v') :: rest, k, v =>
    if k' = k then (k, v) :: rest else (k', v') :: setAssoc rest k v

/-- Python `d[k]` / `k in d` on an association list whose keys are unique
(every Python dict has unique keys): the first matching entry. -/
def lookupAssoc {α β : Type} [DecidableEq α] (l : List (α × β)) (k : α) : Option β :=
  (l.find? (fun e => e.1 = k)).map (·.2)

/-- Sum of all counts in a counter (the total frequency mass). -/
def totalMass {α : Type} (l : List (α × Nat)) : Nat :=
  (l.map Prod.snd).sum

/-- Python `self.vocab[id]`: lookup of a token id in the vocabulary. -/
def vocabLookup (vocab : List (Nat × List Nat)) (id : Nat) : Option (List Nat) :=
  lookupAssoc vocab id

/-- Python `self.decoder = {v: k for k, v in vocab.items()}` followed by
`self.decoder[content]`: for duplicate contents the *last* vocabulary
entry wins, exactly as in the Python dict comprehension. -/
def decoderLookup (vocab : List (Nat × List Nat)) (content : List Nat) : Option Nat :=
  (vocab.reverse.find? (fun e => e.2 = content)).map (·.1)

/-! ## UTF-8 (`str.encode("utf-8")` and `bytes.decode("utf-8", errors="replace")`) -/

/-- A valid Unicode scalar value (encodable by `str.encode("utf-8")`). -/
def validCp (c : Nat) : Prop :=
  c < 0x110000 ∧ ¬(0xD800 ≤ c ∧ c < 0xE000)

instance (c : Nat) : Decidable (validCp c) := by
  unfold validCp; infer_instance

/-- UTF-8 encoding of one code point. -/
def utf8EncodeChar (c : Nat) : List Nat :=
  if c < 0x80 then [c]
  else if c < 0x800 then [0xC0 + c / 64, 0x80 + c % 64]
  else if c < 0x10000 then
    [0xE0 + c / 4096, 0x80 + (c / 64) % 64, 0x80 + c % 64]
  else
    [0xF0 + c / 262144, 0x80 + (c / 4096) % 64, 0x80 + (c / 64) % 64, 0x80 + c % 64]

/-- Python `s.encode("utf-8")` for a string given as code points. -/
def utf8Encode (s : List Nat) : List Nat :=
  (s.map utf8EncodeChar).flatten

/-- One step of strict UTF-8 decoding with replacement: returns the
next decoded code point (`0xFFFD` for a maximal ill-formed subpart, as
CPython's `errors="replace"` does) and the remaining bytes.  Overlong
forms, surrogates and values above U+10FFFF are rejected via the
restricted ranges of the first continuation byte. -/
def utf8DecodeOne : List Nat → Option (Nat × List Nat)
  | [] => none
  | b0 :: rest =>
    if b0 < 0x80 then some (b0, rest)
    else if b0 < 0xC2 then some (0xFFFD, rest)
    else if b0 < 0xE0 then
      match rest with
      | [] => some (0xFFFD, [])
      | b1 :: r1 =>
        if 0x80 ≤ b1 ∧ b1 < 0xC0 then
          some ((b0 - 0xC0) * 64 + (b1 - 0x80), r1)
        else some (0xFFFD, b1 :: r1)
    else if b0 < 0xF0 then
      match rest with
      | [] => some (0xFFFD, [])
      | b1 :: r1 =>
        if (if b0 = 0xE0 then 0xA0 else 0x80) ≤ b1 ∧
            b1 ≤ (if b0 = 0xED then 0x9F else 0xBF) then
          match r1 with
          | [] => some (0xFFFD, [])
          | b2 :: r2 =>
            if 0x80 ≤ b2 ∧ b2 < 0xC0 then
              some ((b0 - 0xE0) * 4096 + (b1 - 0x80) * 64 + (b2 - 0x80), r2)
            else some (0xFFFD, b2 :: r2)
        else some (0xFFFD, b1 :: r1)
    else if b0 < 0xF5 then
      match rest with
      | [] => some (0xFFFD, [])
      | b1 :: r1 =>
        if (if b0 = 0xF0 then 0x90 else 0x80) ≤ b1 ∧
            b1 ≤ (if b0 = 0xF4 then 0x8F else 0xBF) then
          match r1 with
          | [] => some (0xFFFD, [])
          | b2 :: r2 =>
            if 0x80 ≤ b2 ∧ b2 < 0xC0 then
              match r2 with
              | [] => some (0xFFFD, [])
              | b3 :: r3 =>
                if 0x80 ≤ b3 ∧ b3 < 0xC0 then
                  some ((b0 - 0xF0) * 262144 + (b1 - 0x80) * 4096 +
                    (b2 - 0x80) * 64 + (b3 - 0x80), r3)
                else some (0xFFFD, b3 :: r3)
            else some (0xFFFD, b2 :: r2)
        else some (0xFFFD, b1 :: r1)
    else some (0xFFFD, rest)

/-- Fueled decoding loop; each step consumes at least one byte, so fuel
equal to the byte count is always sufficient. -/
def utf8DecodeReplaceFuel : Nat → List Nat → List Nat
  | 0, _ => []
  | fuel + 1, l =>
    match utf8DecodeOne l with
    | none => []
    | some (cp, rest) => cp :: utf8DecodeReplaceFuel fuel rest

/-- Python `bytes.decode("utf-8", errors="replace")`. -/
def utf8DecodeReplace (l : List Nat) : List Nat :=
  utf8DecodeReplaceFuel l.length l

/-! ## The GPT-2 pre-tokenization pattern

`GPT2_SPLIT_PATTERN = '(?:[sdmt]|ll|ve|re)| ?\p{L}+| ?\p{N}+| ?[^\s\p{L}\p{N}]+|\s+(?!\S)|\s+`

modelled as a prioritized alternation tried at each position; `re.findall`
over this pattern is the scan `findall` below. -/

/-- The class `\s` (ASCII range plus U+0085; see the header note). -/
def isWsCp (c : Nat) : Bool :=
  (9 ≤ c ∧ c ≤ 13) ∨ (28 ≤ c ∧ c ≤ 31) ∨ c = 32 ∨ c = 0x85

/-- The class `\p{L}` (ASCII range; see the header note). -/
def isLetterCp (c : Nat) : Bool :=
  (65 ≤ c ∧ c ≤ 90) ∨ (97 ≤ c ∧ c ≤ 122)

/-- The class `\p{N}` (ASCII range; see the header note). -/
def isDigitCp (c : Nat) : Bool :=
  48 ≤ c ∧ c ≤ 57

/-- The class `[^\s\p{L}\p{N}]`. -/
def isOtherCp (c : Nat) : Bool :=
  ¬isWsCp c ∧ ¬isLetterCp c ∧ ¬isDigitCp c

/-- Alternative 1: `'(?:[sdmt]|ll|ve|re)` (code point 39 is `'`). -/
def tryContraction (s : List Nat) : Option (List Nat × List Nat) :=
  match s with
  | 39 :: d :: rest =>
    if d = 115 ∨ d = 100 ∨ d = 109 ∨ d = 116 then some ([39, d], rest)
    else
      match s with
      | 39 :: 108 :: 108 :: r => some ([39, 108, 108], r)
      | 39 :: 118 :: 101 :: r => some ([39, 118, 101], r)
      | 39 :: 114 :: 101 :: r => some ([39, 114, 101], r)
      | _ => none
  | _ => none

/-- The optional single literal space in ` ?`. -/
def optSpace (s : List Nat) : List Nat × List Nat :=
  match s with
  | 32 :: r => ([32], r)
  | _ => ([], s)

/-- Alternatives 2-4: ` ?X+` for a character class `X`. -/
def tryClassRun (p : Nat → Bool) (s : List Nat) : Option (List Nat × List Nat) :=
  let sp := optSpace s
  let run := sp.2.takeWhile p
  if run = [] then none else some (sp.1 ++ run, sp.2.dropWhile p)

/-- Alternative 5: `\s+(?!\S)` — a whitespace run that is not followed
by a non-whitespace character; when the run is followed by one, the
regex backtracks a single character, which requires the run to have
length ≥ 2. -/
def trySpaceNoTrail (s : List Nat) : Option (List Nat × List Nat) :=
  let run := s.takeWhile isWsCp
  let rest := s.dropWhile isWsCp
  if run = [] then none
  else if rest = [] then some (run, [])
  else if 2 ≤ run.length then some (run.dropLast, run.getLastD 0 :: rest)
  else none

/-- Alternative 6: `\s+`. -/
def trySpaces (s : List Nat) : Option (List Nat × List Nat) :=
  let run := s.takeWhile isWsCp
  if run = [] then none else some (run, s.dropWhile isWsCp)

/-- One match attempt of the word pattern at the current position:
the six alternatives in the order they appear in the pattern. -/
def matchOne (s : List Nat) : Option (List Nat × List Nat) :=
  (tryContraction s).orElse fun _ =>
  (tryClassRun isLetterCp s).orElse fun _ =>
  (tryClassRun isDigitCp s).orElse fun _ =>
  (tryClassRun isOtherCp s).orElse fun _ =>
  (trySpaceNoTrail s).orElse fun _ =>
  trySpaces s

/-- Python `re.findall(GPT2_SPLIT_PATTERN, s)`: repeated leftmost matching;
a position where no alternative matches is skipped (this never happens
for this pattern — see `matchOne_total`).  Fuel `s.length` suffices
because every step consumes at least one code point. -/
def findallFuel : Nat → List Nat → List (List Nat)
  | 0, _ => []
  | _, [] => []
  | fuel + 1, c :: cs =>
    match matchOne (c :: cs) with
    | some (tok, rest) => tok :: findallFuel fuel rest
    | none => findallFuel fuel cs

/-- Python `re.findall(GPT2_SPLIT_PATTERN, s)`. -/
def findall (s : List Nat) : List (List Nat) :=
  findallFuel s.length s

/-! ## Special-token splitting

`re.split(f"({pattern})", text)` where `pattern` is the alternation of
the literal special tokens in the order of the list `toks`: scan left to
right, at each position try each token in list order, split at every
match, keeping the matched separators (capture group). -/

/-- The first token of `toks` (in list order) matching at the head of `s`. -/
def firstTokenMatch (toks : List (List Nat)) (s : List Nat) : Option (List Nat) :=
  toks.find? (fun t => t.isPrefixOf s)

/-- Leftmost match of the alternation in `s`: the text before the
match, the matched token, and the text after it. -/
def findFirstMatch (toks : List (List Nat)) :
    List Nat → Option (List Nat × List Nat × List Nat)
  | [] => none
  | c :: cs =>
    match firstTokenMatch toks (c :: cs) with
    | some t => some ([], t, (c :: cs).drop t.length)
    | none => (findFirstMatch toks cs).map (fun r => (c :: r.1, r.2.1, r.2.2))

/-- Python `re.split` with a capture group: alternating plain and matched
segments (possibly empty plain segments), concatenating back to the
input.  Fuel `length + 1` suffices when no token is empty. -/
def splitBySpecialFuel (toks : List (List Nat)) : Nat → List Nat → List (List Nat)
  | 0, s => [s]
  | fuel + 1, s =>
    match findFirstMatch toks s with
    | none => [s]
    | some (pre, m, rest) => pre :: m :: splitBySpecialFuel toks fuel rest

/-- Python `re.split(f"({'|'.join(map(re.escape, toks))})", text)`. -/
def splitBySpecial (toks : List (List Nat)) (text : List Nat) : List (List Nat) :=
  splitBySpecialFuel toks (text.length + 1) text

/-- Stable insertion of a token into a list sorted by decreasing length. -/
def insertByLenDesc (x : List Nat) : List (List Nat) → List (List Nat)
  | [] => [x]
  | y :: ys => if x.length ≥ y.length then x :: y :: ys else y :: insertByLenDesc x ys

/-- Python `sorted(special_tokens, key=len, reverse=True)` (stable, longest first). -/
def sortSpecials (toks : List (List Nat)) : List (List Nat) :=
  toks.foldr insertByLenDesc []

/-! ## Trainer (`bpe.py`) -/

/-- Python `_pretokenize_and_count(text, special_tokens)`: split by the special
tokens **in the given order** (the source does not sort them here), skip
empty segments and segments equal to a special token, apply the word
pattern to the rest and count each word's UTF-8 byte tuple. -/
def pretokenizeAndCount (text : List Nat) (specials : List (List Nat)) :
    List (List Nat × Nat) :=
  let segs := if specials = [] then [text] else splitBySpecial specials text
  segs.foldl (fun counts seg =>
    if seg = [] ∨ seg ∈ specials then counts
    else
      (findall seg).foldl (fun counts word =>
        if word = [] then counts
        else addCount counts (utf8Encode word) 1) counts) []

/-- Python `_get_pair_stats(word_counts)`: for every word of length ≥ 2, add the
word's frequency to every adjacent symbol pair, once per occurrence. -/
def getPairStats (wc : List (List Nat × Nat)) : List ((Nat × Nat) × Nat) :=
  wc.foldl (fun stats e =>
    if e.1.length < 2 then stats
    else (e.1.zip e.1.tail).foldl (fun stats p => addCount stats p e.2) stats) []

/-- The scan of `_merge_vocab`'s `while` loop: at each position compare
the window with the pair; on a match splice in `N` and **stay at the
same index** (the code does not advance `i`), otherwise advance one
position.  Fuel `word.length` suffices, each step shortening the
remaining list. -/
def mergeScanFuel (pair : Nat × Nat) (N : Nat) : Nat → List Nat → List Nat
  | 0, l => l
  | _ + 1, [] => []
  | _ + 1, [a] => [a]
  | fuel + 1, a :: b :: rest =>
    if a = pair.1 ∧ b = pair.2 then mergeScanFuel pair N fuel (N :: rest)
    else a :: mergeScanFuel pair N fuel (b :: rest)

/-- One word rewritten by `_merge_vocab`. -/
def mergeWordCode (pair : Nat × Nat) (N : Nat) (word : List Nat) : List Nat :=
  mergeScanFuel pair N word.length word

/-- The spec's description of the scan: after a replacement, resume just
past the inserted symbol (never re-match against it). -/
def mergeScanSpecFuel (pair : Nat × Nat) (N : Nat) : Nat → List Nat → List Nat
  | 0, l => l
  | _ + 1, [] => []
  | _ + 1, [a] => [a]
  | fuel + 1, a :: b :: rest =>
    if a = pair.1 ∧ b = pair.2 then N :: mergeScanSpecFuel pair N fuel rest
    else a :: mergeScanSpecFuel pair N fuel (b :: rest)

/-- One word rewritten as the spec describes the scan. -/
def mergeWordSpec (pair : Nat × Nat) (N : Nat) (word : List Nat) : List Nat :=
  mergeScanSpecFuel pair N word.length word

/-- Python `_merge_vocab(word_counts, pair_to_merge, new_token_id)`: rebuild the
frequency table, copying through words of length < 2 and words not
containing the pair's first symbol, rewriting the rest. -/
def mergeVocab (wc : List (List Nat × Nat)) (pair : Nat × Nat) (N : Nat) :
    List (List Nat × Nat) :=
  wc.foldl (fun acc e =>
    if e.1.length < 2 then addCount acc e.1 e.2
    else if pair.1 ∉ e.1 then addCount acc e.1 e.2
    else addCount acc (mergeWordCode pair N e.1) e.2) []

/-- Python `_merge_vocab` without the two copy-through optimizations: every
word is rewritten. -/
def mergeVocabAll (wc : List (List Nat × Nat)) (pair : Nat × Nat) (N : Nat) :
    List (List Nat × Nat) :=
  wc.foldl (fun acc e => addCount acc (mergeWordCode pair N e.1) e.2) []

/-- Python `bytes` comparison `a < b`: lexicographic, a proper prefix is
smaller. -/
def bytesLtB : List Nat → List Nat → Bool
  | _, [] => false
  | [], _ :: _ => true
  | a :: as', b :: bs => a < b ∨ (a = b ∧ bytesLtB as' bs)

/-- Python tuple comparison `k1 > k2` for keys
`(count, vocab[first], vocab[second])` as used in
`max(pair_counts, key=lambda p: (pair_counts[p], vocab[p[0]], vocab[p[1]]))`. -/
def keyGtB (k1 k2 : Nat × List Nat × List Nat) : Bool :=
  k2.1 < k1.1 ∨ (k1.1 = k2.1 ∧
    (bytesLtB k2.2.1 k1.2.1 ∨ (k1.2.1 = k2.2.1 ∧ bytesLtB k2.2.2 k1.2.2)))

/-- Python `vocab[id]` inside the trainer (always present there; the default is
never reached in the training loop). -/
def content (vocab : List (Nat × List Nat)) (id : Nat) : List Nat :=
  (vocabLookup vocab id).getD []

/-- The key of one `pair_counts` entry. -/
def pairKey (vocab : List (Nat × List Nat)) (e : (Nat × Nat) × Nat) :
    Nat × List Nat × List Nat :=
  (e.2, content vocab e.1.1, content vocab e.1.2)

/-- Python `max(pair_counts, key=...)`: left fold keeping the first entry on
ties, replacing only when a strictly greater key appears. -/
def selectBestPair (vocab : List (Nat × List Nat)) :
    List ((Nat × Nat) × Nat) → Option ((Nat × Nat) × Nat)
  | [] => none
  | e :: es =>
    some (es.foldl (fun best x =>
      if keyGtB (pairKey vocab x) (pairKey vocab best) then x else best) e)

/-- The training loop of `train_bpe` (steps 4.1-4.5 of the source):
returns the vocabulary, the merge list and the final frequency table. -/
def trainLoop : Nat → List (Nat × List Nat) → List (List Nat × List Nat) →
    Nat → List (List Nat × Nat) →
    List (Nat × List Nat) × List (List Nat × List Nat) × List (List Nat × Nat)
  | 0, vocab, merges, _, wc => (vocab, merges, wc)
  | fuel + 1, vocab, merges, nextId, wc =>
    let stats := getPairStats wc
    match selectBestPair vocab stats with
    | none => (vocab, merges, wc)
    | some best =>
      let a := content vocab best.1.1
      let b := content vocab best.1.2
      trainLoop fuel (vocab ++ [(nextId, a ++ b)]) (merges ++ [(a, b)])
        (nextId + 1) (mergeVocab wc best.1 nextId)

/-- The 256 single-byte base vocabulary entries. -/
def baseVocab : List (Nat × List Nat) :=
  (List.range 256).map (fun i => (i, [i]))

/-- Python `train_bpe` on the corpus text (file reading is out of scope),
additionally returning the final frequency table.  The loop runs
`vocab_size - 256 - len(special_tokens)` iterations (an empty range when
that is not positive, as in Python). -/
def trainBPEFull (text : List Nat) (vocabSize : Nat) (specials : List (List Nat)) :
    List (Nat × List Nat) × List (List Nat × List Nat) × List (List Nat × Nat) :=
  let wc := pretokenizeAndCount text specials
  let numMerges := vocabSize - 256 - specials.length
  let r := trainLoop numMerges baseVocab [] 256 wc
  let specialEntries := ((List.range specials.length).zip specials).map
    (fun e => (256 + r.2.1.length + e.1, utf8Encode e.2))
  (r.1 ++ specialEntries, r.2.1, r.2.2)

/-- Python `train_bpe`: the returned `(vocab, merges)`. -/
def trainBPE (text : List Nat) (vocabSize : Nat) (specials : List (List Nat)) :
    List (Nat × List Nat) × List (List Nat × List Nat) :=
  let r := trainBPEFull text vocabSize specials
  (r.1, r.2.1)

/-! ## Tokenizer (`tokenizer.py`) -/

/-- Python `self.special_token_ids`: maps each configured special token string
to `decoder[token.encode("utf-8")]`, skipping tokens whose byte content
is not in the vocabulary (`if token_bytes in self.decoder`). -/
def specialTokenIds (vocab : List (Nat × List Nat)) (specials : List (List Nat)) :
    List (List Nat × Nat) :=
  specials.foldl (fun acc t =>
    match decoderLookup vocab (utf8Encode t) with
    | some id => setAssoc acc t id
    | none => acc) []

/-- The index of the first occurrence of a pair in the merge list — the
priority computed by `_encode_bytes`'s inner
`for priority, (p1, p2) in enumerate(self.merges): ... break` scan. -/
def idxOfPair (merges : List (List Nat × List Nat)) (p : List Nat × List Nat) : Nat :=
  match merges with
  | [] => 0
  | m :: ms => if m = p then 0 else idxOfPair ms p + 1

/-- The adjacent pair `(parts[i], parts[i+1])`. -/
def pairAt (parts : List (List Nat)) (i : Nat) : List Nat × List Nat :=
  (parts.getD i [], parts.getD (i + 1) [])

/-- The candidate merges of one scan of `_encode_bytes`'s `for i in
range(len(parts) - 1)` loop: position and priority of every adjacent
pair that is a key of `merge_map` (whose key set is the set of pairs of
`self.merges`, given that construction succeeded). -/
def candidatePairs (merges : List (List Nat × List Nat)) (parts : List (List Nat)) :
    List (Nat × Nat) :=
  (List.range (parts.length - 1)).filterMap (fun i =>
    if pairAt parts i ∈ merges then some (i, idxOfPair merges (pairAt parts i))
    else none)

/-- The selection of `best_pair_index`/`best_priority`: scanning the
candidates in position order, replace the current best only on a
strictly smaller priority (so the leftmost wins among equal pairs). -/
def pickBest (l : List (Nat × Nat)) : Option (Nat × Nat) :=
  l.foldl (fun best c =>
    match best with
    | none => some c
    | some b => if c.2 < b.2 then some c else best) none

/-- Here `findBest merges parts` is the merge applied by one iteration of
`_encode_bytes`'s `while` loop, if any. -/
def findBest (merges : List (List Nat × List Nat)) (parts : List (List Nat)) :
    Option (Nat × Nat) :=
  pickBest (candidatePairs merges parts)

/-- Python `parts[i:i+2] = [parts[i] + parts[i+1]]` (the merged byte string
equals `best_pair[0] + best_pair[1]` since the pair was read off at
positions `i`, `i+1`). -/
def mergeAt (parts : List (List Nat)) (i : Nat) : List (List Nat) :=
  parts.take i ++ [parts.getD i [] ++ parts.getD (i + 1) []] ++ parts.drop (i + 2)

/-- The `while len(parts) > 1` loop of `_encode_bytes`.  Fuel
`parts.length` suffices: every iteration shortens `parts` by one. -/
def encodePartsFuel (merges : List (List Nat × List Nat)) :
    Nat → List (List Nat) → List (List Nat)
  | 0, parts => parts
  | fuel + 1, parts =>
    if parts.length ≤ 1 then parts
    else
      match findBest merges parts with
      | none => parts
      | some c => encodePartsFuel merges fuel (mergeAt parts c.1)

/-- The final symbol sequence produced by `_encode_bytes` before the
id lookup. -/
def encodeParts (merges : List (List Nat × List Nat)) (parts : List (List Nat)) :
    List (List Nat) :=
  encodePartsFuel merges parts.length parts

/-- Python `_encode_bytes(word_bytes)`: byte-level greedy merging followed by
`[self.decoder[p] for p in parts]` (`none` models the `KeyError`). -/
def encodeWordIds (vocab : List (Nat × List Nat)) (merges : List (List Nat × List Nat))
    (wordBytes : List Nat) : Option (List Nat) :=
  (encodeParts merges (wordBytes.map (fun b => [b]))).mapM (decoderLookup vocab)

/-- The plain-text path of `encode` on one segment: `re.findall` with the
word pattern, then `_encode_bytes` per non-empty word, concatenated. -/
def encodePlainSeg (vocab : List (Nat × List Nat)) (merges : List (List Nat × List Nat))
    (seg : List Nat) : Option (List Nat) :=
  ((findall seg).mapM (fun w =>
    if w = [] then some [] else encodeWordIds vocab merges (utf8Encode w))).map
    List.flatten

/-- Python `Tokenizer.encode(text)`: split by the special tokens sorted longest
first (when there are any), emit the reserved id for each segment that
is a registered special token, skip empty segments, and run the
byte-level BPE on the rest. -/
def encode (vocab : List (Nat × List Nat)) (merges : List (List Nat × List Nat))
    (specials : List (List Nat)) (text : List Nat) : Option (List Nat) :=
  let stIds := specialTokenIds vocab specials
  let segs := if specials = [] then [text]
    else splitBySpecial (sortSpecials specials) text
  (segs.mapM (fun seg =>
    match lookupAssoc stIds seg with
    | some id => some [id]
    | none => if seg = [] then some [] else encodePlainSeg vocab merges seg)).map
    List.flatten

/-- The byte concatenation loop of `Tokenizer.decode(ids)`: append
`self.vocab[token_id]` for every id present in the vocabulary, silently
skipping the rest. -/
def decodeRawBytes (vocab : List (Nat × List Nat)) (ids : List Nat) : List Nat :=
  ids.foldl (fun acc id =>
    match vocabLookup vocab id with
    | some v => acc ++ v
    | none => acc) []

/-- Python `Tokenizer.decode(ids)`. -/
def decode (vocab : List (Nat × List Nat)) (ids : List Nat) : List Nat :=
  utf8DecodeReplace (decodeRawBytes vocab ids)

/-! ## Streaming encode (`Tokenizer.encode_iterable`) -/

/-- Python `re.finditer(pattern, buffer)` for the special-token alternation:
the `(start, end)` positions of all leftmost non-overlapping matches, in
order.  Fuel `buffer.length` suffices when no token is empty. -/
def findMatchesFuel (toks : List (List Nat)) : Nat → Nat → List Nat → List (Nat × Nat)
  | 0, _, _ => []
  | fuel + 1, pos, rem =>
    match rem with
    | [] => []
    | _ :: cs =>
      match firstTokenMatch toks rem with
      | some t => (pos, pos + t.length) ::
          findMatchesFuel toks fuel (pos + t.length) (rem.drop t.length)
      | none => findMatchesFuel toks fuel (pos + 1) cs

/-- All special-token matches in `buffer`. -/
def findMatches (toks : List (List Nat)) (buffer : List Nat) : List (Nat × Nat) :=
  findMatchesFuel toks buffer.length 0 buffer

/-- The `for match in re.finditer(...)` body of `encode_iterable`: the
match positions were computed against the buffer `orig` at loop entry,
but `buffer` is reassigned to `buffer[match.end():]` *inside* the loop,
so `buffer[:match.start()]` and `buffer[match.end():]` slice the already
shortened buffer with the stale positions, while `match.group()` is the
slice of `orig`.  Returns the emitted ids and the final buffer. -/
def processMatches (vocab : List (Nat × List Nat)) (merges : List (List Nat × List Nat))
    (stIds : List (List Nat × Nat)) (orig : List Nat) :
    List (Nat × Nat) → List Nat → Option (List Nat × List Nat)
  | [], buf => some ([], buf)
  | (s, e) :: ms, buf => do
    let before := buf.take s
    let ids1 ← if before = [] then some [] else encodePlainSeg vocab merges before
    let mtext := (orig.drop s).take (e - s)
    let spOut := match lookupAssoc stIds mtext with
      | some id => [id]
      | none => []
    let r ← processMatches vocab merges stIds orig ms (buf.drop e)
    some (ids1 ++ spOut ++ r.1, r.2)

/-- The hold-back step shared by both branches of `encode_iterable`:
encode every word of `buf` except the last, and keep the last word as
the new buffer (`emptyBuf` is what the buffer becomes when no word is
found: `buf` itself in the branch without special tokens, `[]` in the
branch with them). -/
def holdLastEmit (vocab : List (Nat × List Nat)) (merges : List (List Nat × List Nat))
    (buf emptyBuf : List Nat) : Option (List Nat × List Nat) :=
  let words := findall buf
  ((words.dropLast.mapM (fun w =>
    if w = [] then some [] else encodeWordIds vocab merges (utf8Encode w))).map
    List.flatten).map
    (fun out => (out, if words = [] then emptyBuf else words.getLastD []))

/-- One iteration of `encode_iterable`'s `for chunk in iterable` loop. -/
def chunkStep (vocab : List (Nat × List Nat)) (merges : List (List Nat × List Nat))
    (specials : List (List Nat)) (stIds : List (List Nat × Nat))
    (buffer chunk : List Nat) : Option (List Nat × List Nat) :=
  let buf := buffer ++ chunk
  if specials = [] then holdLastEmit vocab merges buf buf
  else do
    let ms := findMatches (sortSpecials specials) buf
    let r1 ← processMatches vocab merges stIds buf ms buf
    let r2 ← holdLastEmit vocab merges r1.2 []
    some (r1.1 ++ r2.1, r2.2)

/-- The chunk loop of `encode_iterable` followed by the final flush
(`if buffer: ... for word in words: ...`). -/
def encodeIterableGo (vocab : List (Nat × List Nat))
    (merges : List (List Nat × List Nat)) (specials : List (List Nat))
    (stIds : List (List Nat × Nat)) :
    List (List Nat) → List Nat → Option (List Nat)
  | [], buffer => if buffer = [] then some [] else encodePlainSeg vocab merges buffer
  | chunk :: rest, buffer => do
    let r ← chunkStep vocab merges specials stIds buffer chunk
    let out ← encodeIterableGo vocab merges specials stIds rest r.2
    some (r.1 ++ out)

/-- Python `list(Tokenizer.encode_iterable(chunks))`. -/
def encodeIterable (vocab : List (Nat × List Nat))
    (merges : List (List Nat × List Nat)) (specials : List (List Nat))
    (chunks : List (List Nat)) : Option (List Nat) :=
  encodeIterableGo vocab merges specials (specialTokenIds vocab specials) chunks []

/-! # Lemmas and theorems -/

/-! ## Counters -/

theorem totalMass_addCount {α : Type} [DecidableEq α] (l : List (α × Nat)) (k : α)
    (v : Nat) : totalMass (addCount l k v) = totalMass l + v := by
  induction l with
  | nil => simp [addCount, totalMass]
  | cons e rest ih =>
    by_cases h : e.1 = k
    · simp [addCount, h, totalMass]
      omega
    · simp only [addCount]
      rw [if_neg (by exact h)]
      simp [totalMass] at ih ⊢
      omega

/-! ## The `_merge_vocab` scan -/

theorem mergeScanFuel_congr (p : Nat × Nat) (N : Nat) :
    ∀ f g l, l.length ≤ f → l.length ≤ g →
      mergeScanFuel p N f l = mergeScanFuel p N g l := by
  intro f
  induction f with
  | zero =>
    intro g l hf _
    have : l = [] := List.eq_nil_of_length_eq_zero (by omega)
    subst this
    cases g <;> rfl
  | succ f ih =>
    intro g l hf hg
    match l, g with
    | [], 0 => rfl
    | [], g + 1 => rfl
    | [a], g + 1 => rfl
    | a :: b :: rest, g + 1 =>
      simp only [List.length_cons] at hf hg
      simp only [mergeScanFuel]
      by_cases hm : a = p.1 ∧ b = p.2
      · rw [if_pos hm, if_pos hm]
        exact ih g (N :: rest) (by simp; omega) (by simp; omega)
      · rw [if_neg hm, if_neg hm]
        rw [ih g (b :: rest) (by simp; omega) (by simp; omega)]

theorem mergeScanSpecFuel_congr (p : Nat × Nat) (N : Nat) :
    ∀ f g l, l.length ≤ f → l.length ≤ g →
      mergeScanSpecFuel p N f l = mergeScanSpecFuel p N g l := by
  intro f
  induction f with
  | zero =>
    intro g l hf _
    have : l = [] := List.eq_nil_of_length_eq_zero (by omega)
    subst this
    cases g <;> rfl
  | succ f ih =>
    intro g l hf hg
    match l, g with
    | [], 0 => rfl
    | [], g + 1 => rfl
    | [a], g + 1 => rfl
    | a :: b :: rest, g + 1 =>
      simp only [List.length_cons] at hf hg
      simp only [mergeScanSpecFuel]
      by_cases hm : a = p.1 ∧ b = p.2
      · rw [if_pos hm, if_pos hm]
        rw [ih g rest (by omega) (by omega)]
      · rw [if_neg hm, if_neg hm]
        rw [ih g (b :: rest) (by simp; omega) (by simp; omega)]

/-- With a fresh first component, re-scanning from the inserted symbol
(as the code does) immediately falls through to the next position. -/
theorem mergeScanFuel_fresh_head (p : Nat × Nat) (N : Nat) (hN : N ≠ p.1) :
    ∀ g l, mergeScanFuel p N (g + 1) (N :: l) = N :: mergeScanFuel p N g l := by
  intro g l
  match l with
  | [] => cases g <;> rfl
  | b :: rest =>
    simp only [mergeScanFuel]
    rw [if_neg (by intro h; exact hN h.1)]

theorem mergeScan_code_eq_spec (p : Nat × Nat) (N : Nat) (hN : N ≠ p.1) :
    ∀ f l, l.length ≤ f → mergeScanFuel p N f l = mergeScanSpecFuel p N f l := by
  intro f
  induction f with
  | zero => intro l _; cases l <;> rfl
  | succ f ih =>
    intro l hl
    match l with
    | [] => rfl
    | [a] => rfl
    | a :: b :: rest =>
      simp only [List.length_cons] at hl
      simp only [mergeScanFuel, mergeScanSpecFuel]
      by_cases hm : a = p.1 ∧ b = p.2
      · rw [if_pos hm, if_pos hm]
        match f, hl with
        | f + 1, hl =>
          rw [mergeScanFuel_fresh_head p N hN f rest]
          rw [mergeScanFuel_congr p N f (f + 1) rest (by omega) (by omega)]
          rw [ih rest (by omega)]
      · rw [if_neg hm, if_neg hm]
        rw [ih (b :: rest) (by simp; omega)]

/-- A word that does not contain the pair's first symbol is left
unchanged by the scan. -/
theorem mergeScanFuel_not_mem (p : Nat × Nat) (N : Nat) :
    ∀ f l, p.1 ∉ l → mergeScanFuel p N f l = l := by
  intro f
  induction f with
  | zero => intro l _; rfl
  | succ f ih =>
    intro l hl
    match l with
    | [] => rfl
    | [a] => rfl
    | a :: b :: rest =>
      simp only [mergeScanFuel]
      rw [if_neg (by intro h; exact hl (h.1 ▸ List.mem_cons_self a _))]
      rw [ih (b :: rest) (fun h => hl (List.mem_cons_of_mem a h))]

theorem mergeWordCode_short (p : Nat × Nat) (N : Nat) (w : List Nat)
    (h : w.length < 2) : mergeWordCode p N w = w := by
  match w, h with
  | [], _ => rfl
  | [a], _ => rfl

theorem mergeWordCode_not_mem (p : Nat × Nat) (N : Nat) (w : List Nat)
    (h : p.1 ∉ w) : mergeWordCode p N w = w :=
  mergeScanFuel_not_mem p N w.length w h

theorem mergeVocab_eq_all (wc : List (List Nat × Nat)) (p : Nat × Nat) (N : Nat) :
    mergeVocab wc p N = mergeVocabAll wc p N := by
  unfold mergeVocab mergeVocabAll
  congr 1
  funext acc e
  by_cases h1 : e.1.length < 2
  · rw [if_pos h1, mergeWordCode_short p N e.1 h1]
  · rw [if_neg h1]
    by_cases h2 : p.1 ∉ e.1
    · rw [if_pos h2, mergeWordCode_not_mem p N e.1 h2]
    · rw [if_neg h2]

/-- Claim C6: the merge-application scan of `_merge_vocab` replaces
maximal non-overlapping occurrences of the pair left to right.  The code
resumes the scan *at* the spliced-in symbol rather than just past it,
but since the new symbol `N` differs from the pair's first symbol (in
the training loop `N` is always a fresh id), the window starting at the
inserted symbol can never match, so the code's scan coincides with the
spec's resume-past-the-replacement scan; a word of length < 2 or not
containing the pair's first symbol is copied through unchanged, and the
copy-through optimization does not change the resulting table. -/
theorem mergeVocab_scan_correct (p : Nat × Nat) (N : Nat) (w : List Nat)
    (wc : List (List Nat × Nat)) :
    (N ≠ p.1 → mergeWordCode p N w = mergeWordSpec p N w) ∧
    (p.1 ∉ w → mergeWordCode p N w = w) ∧
    mergeVocab wc p N = mergeVocabAll wc p N :=
  ⟨fun hN => mergeScan_code_eq_spec p N hN w.length w le_rfl,
   fun hw => mergeWordCode_not_mem p N w hw,
   mergeVocab_eq_all wc p N⟩

/-- Witness for `mergeVocab_scan_correct` at concrete inputs: the word
`[1,2,2,1,2]` with pair `(1,2)` and fresh symbol `3` rewrites to
`[3,2,3]` under both scans; `[4,5]` (no first symbol) is unchanged; and
the optimized table rewrite agrees with rewriting every word. -/
theorem mergeVocab_scan_correct_witness :
    (mergeWordCode (1, 2) 3 [1, 2, 2, 1, 2] = mergeWordSpec (1, 2) 3 [1, 2, 2, 1, 2]) ∧
    (mergeWordCode (1, 2) 3 [4, 5] = [4, 5]) ∧
    mergeVocab [([1, 2], 5), ([1], 2)] (1, 2) 3 =
      mergeVocabAll [([1, 2], 5), ([1], 2)] (1, 2) 3 :=
  ⟨(mergeVocab_scan_correct (1, 2) 3 [1, 2, 2, 1, 2] []).1 (by decide),
   (mergeVocab_scan_correct (1, 2) 3 [4, 5] []).2.1 (by decide),
   (mergeVocab_scan_correct (1, 2) 3 [] [([1, 2], 5), ([1], 2)]).2.2⟩

/-- Auxiliary: the fold of `_merge_vocab` adds each word's frequency to
the accumulated table exactly once, whichever branch is taken. -/
theorem mergeVocab_fold_mass (p : Nat × Nat) (N : Nat) :
    ∀ (wc : List (List Nat × Nat)) (acc : List (List Nat × Nat)),
      totalMass (wc.foldl (fun acc e =>
        if e.1.length < 2 then addCount acc e.1 e.2
        else if p.1 ∉ e.1 then addCount acc e.1 e.2
        else addCount acc (mergeWordCode p N e.1) e.2) acc) =
      totalMass acc + totalMass wc := by
  intro wc
  induction wc with
  | nil => intro acc; simp [totalMass]
  | cons e rest ih =>
    intro acc
    rw [List.foldl_cons, ih]
    have hstep : totalMass (if e.1.length < 2 then addCount acc e.1 e.2
        else if p.1 ∉ e.1 then addCount acc e.1 e.2
        else addCount acc (mergeWordCode p N e.1) e.2) = totalMass acc + e.2 := by
      split
      · exact totalMass_addCount acc e.1 e.2
      · split
        · exact totalMass_addCount acc e.1 e.2
        · exact totalMass_addCount acc (mergeWordCode p N e.1) e.2
    rw [hstep]
    simp [totalMass]
    omega

/-- Claim C10: `_merge_vocab` preserves the total frequency mass of the
table; counts of words that coincide after the merge are accumulated by
`addCount` (Python `new_counts[w] += freq`), so nothing is lost. -/
theorem mergeVocab_preserves_totalMass (wc : List (List Nat × Nat))
    (p : Nat × Nat) (N : Nat) : totalMass (mergeVocab wc p N) = totalMass wc := by
  unfold mergeVocab
  rw [mergeVocab_fold_mass p N wc []]
  simp [totalMass]

/-! ## Byte-string and key comparison (`max(..., key=...)`) -/

theorem bytesLtB_irrefl : ∀ l : List Nat, bytesLtB l l = false := by
  intro l
  induction l with
  | nil => rfl
  | cons a as ih => simp [bytesLtB, ih]

theorem bytesLtB_trans : ∀ a b c : List Nat,
    bytesLtB a b = true → bytesLtB b c = true → bytesLtB a c = true := by
  intro a
  induction a with
  | nil =>
    intro b c hab hbc
    cases b with
    | nil => exact absurd hab (by simp [bytesLtB])
    | cons y bs =>
      cases c with
      | nil => exact absurd hbc (by simp [bytesLtB])
      | cons z cs => simp [bytesLtB]
  | cons x as ih =>
    intro b c hab hbc
    cases b with
    | nil => exact absurd hab (by simp [bytesLtB])
    | cons y bs =>
      cases c with
      | nil => exact absurd hbc (by simp [bytesLtB])
      | cons z cs =>
        simp only [bytesLtB, decide_eq_true_eq] at hab hbc ⊢
        rcases hab with h1 | ⟨h1, h1'⟩ <;> rcases hbc with h2 | ⟨h2, h2'⟩
        · exact Or.inl (by omega)
        · exact Or.inl (by omega)
        · exact Or.inl (by omega)
        · exact Or.inr ⟨by omega, ih bs cs h1' h2'⟩

theorem bytesLtB_connex : ∀ a b : List Nat,
    bytesLtB a b = false → bytesLtB b a = false → a = b := by
  intro a
  induction a with
  | nil =>
    intro b hab _
    cases b with
    | nil => rfl
    | cons y bs => exact absurd hab (by simp [bytesLtB])
  | cons x as ih =>
    intro b hab hba
    cases b with
    | nil => exact absurd hba (by simp [bytesLtB])
    | cons y bs =>
      simp only [bytesLtB, decide_eq_true_eq, decide_eq_false_iff_not, not_or,
        not_and] at hab hba
      have hxy : x = y := by omega
      subst hxy
      rw [ih bs (by simpa using hab.2 rfl) (by simpa using hba.2 rfl)]

theorem keyGtB_irrefl (k : Nat × List Nat × List Nat) : keyGtB k k = false := by
  simp [keyGtB, bytesLtB_irrefl]

theorem keyGtB_trans (a b c : Nat × List Nat × List Nat)
    (hab : keyGtB a b = true) (hbc : keyGtB b c = true) : keyGtB a c = true := by
  simp only [keyGtB, decide_eq_true_eq] at hab hbc ⊢
  rcases hab with h1 | ⟨h1, h1'⟩ <;> rcases hbc with h2 | ⟨h2, h2'⟩
  · exact Or.inl (by omega)
  · exact Or.inl (by omega)
  · exact Or.inl (by omega)
  · refine Or.inr ⟨by omega, ?_⟩
    rcases h1' with h3 | ⟨h3, h3'⟩ <;> rcases h2' with h4 | ⟨h4, h4'⟩
    · exact Or.inl (bytesLtB_trans _ _ _ h4 h3)
    · exact Or.inl (h4 ▸ h3)
    · exact Or.inl (h3 ▸ h4)
    · exact Or.inr ⟨by rw [h3, h4], bytesLtB_trans _ _ _ h4' h3'⟩

/-- In the total preorder induced by `keyGtB`: `a ≤ b` and `c < a`
imply `c < b`. -/
theorem keyGtB_le_trans (a b c : Nat × List Nat × List Nat)
    (hab : keyGtB a b = false) (hac : keyGtB a c = true) : keyGtB b c = true := by
  simp only [keyGtB, decide_eq_true_eq, decide_eq_false_iff_not, not_or, not_and,
    not_exists] at hab hac ⊢
  obtain ⟨hab1, hab2⟩ := hab
  rcases hac with h1 | ⟨h1, h1'⟩
  · by_cases hba : a.1 = b.1
    · exact Or.inl (by omega)
    · exact Or.inl (by omega)
  · by_cases hba : b.1 = a.1
    · refine Or.inr ⟨by omega, ?_⟩
      have hbytes := hab2 hba.symm
      rcases hbytes with ⟨hb1, hb2⟩
      rcases h1' with h3 | ⟨h3, h3'⟩
      · by_cases hfa : bytesLtB a.2.1 b.2.1 = true
        · exact Or.inl (bytesLtB_trans _ _ _ h3 hfa)
        · have : a.2.1 = b.2.1 := bytesLtB_connex _ _ (by simpa using hfa) (by simpa using hb1)
          exact Or.inl (this ▸ h3)
      · by_cases hfa : bytesLtB a.2.1 b.2.1 = true
        · exact Or.inl (h3 ▸ hfa)
        · have heq : a.2.1 = b.2.1 := bytesLtB_connex _ _ (by simpa using hfa) (by simpa using hb1)
          refine Or.inr ⟨by rw [← heq, h3], ?_⟩
          by_cases hsa : bytesLtB a.2.2 b.2.2 = true
          · exact bytesLtB_trans _ _ _ h3' hsa
          · have : a.2.2 = b.2.2 :=
              bytesLtB_connex _ _ (by simpa using hsa) (by simpa using hb2 heq)
            exact this ▸ h3'
    · exact Or.inl (by omega)

/-- The fold of `selectBestPair` returns one of the candidates. -/
theorem selectFold_mem (vocab : List (Nat × List Nat)) :
    ∀ (xs : List ((Nat × Nat) × Nat)) (best : (Nat × Nat) × Nat),
      xs.foldl (fun best x =>
        if keyGtB (pairKey vocab x) (pairKey vocab best) then x else best) best ∈
        best :: xs := by
  intro xs
  induction xs with
  | nil => intro best; simp
  | cons x xs ih =>
    intro best
    rw [List.foldl_cons]
    have := ih (if keyGtB (pairKey vocab x) (pairKey vocab best) then x else best)
    rcases List.mem_cons.mp this with h | h
    · rw [h]
      split
      · exact List.mem_cons_of_mem _ (List.mem_cons_self _ _)
      · exact List.mem_cons_self _ _
    · exact List.mem_cons_of_mem _ (List.mem_cons_of_mem _ h)

/-- No candidate's key is strictly greater than the fold's result. -/
theorem selectFold_not_gt (vocab : List (Nat × List Nat)) :
    ∀ (xs : List ((Nat × Nat) × Nat)) (best : (Nat × Nat) × Nat),
      keyGtB (pairKey vocab best)
        (pairKey vocab (xs.foldl (fun best x =>
          if keyGtB (pairKey vocab x) (pairKey vocab best) then x else best) best)) =
        false ∧
      ∀ q ∈ xs, keyGtB (pairKey vocab q)
        (pairKey vocab (xs.foldl (fun best x =>
          if keyGtB (pairKey vocab x) (pairKey vocab best) then x else best) best)) =
        false := by
  intro xs
  induction xs with
  | nil => intro best; exact ⟨keyGtB_irrefl _, by simp⟩
  | cons x xs ih =>
    intro best
    rw [List.foldl_cons]
    by_cases hx : keyGtB (pairKey vocab x) (pairKey vocab best) = true
    · rw [if_pos hx]
      obtain ⟨ih1, ih2⟩ := ih x
      refine ⟨?_, ?_⟩
      · by_contra hb
        rw [Bool.not_eq_false] at hb
        have := keyGtB_trans _ _ _ hx hb
        rw [ih1] at this
        exact Bool.false_ne_true this
      · intro q hq
        rcases List.mem_cons.mp hq with h | h
        · exact h ▸ ih1
        · exact ih2 q h
    · rw [if_neg hx]
      rw [Bool.not_eq_true] at hx
      obtain ⟨ih1, ih2⟩ := ih best
      refine ⟨ih1, ?_⟩
      intro q hq
      rcases List.mem_cons.mp hq with h | h
      · subst h
        by_contra hb
        rw [Bool.not_eq_false] at hb
        have := keyGtB_le_trans _ _ _ hx hb
        rw [ih1] at this
        exact Bool.false_ne_true this
      · exact ih2 q h

/-- Claim C2: the pair chosen by the training loop
(`max(pair_counts, key=lambda p: (pair_counts[p], vocab[p[0]], vocab[p[1]]))`)
is one of the counted pairs, and no counted pair has a strictly greater
key, where the key order `keyGtB` is Python's tuple comparison:
frequency first, then the byte-string content of the pair's first
symbol, then (only on equality) the content of the second symbol.  In
particular the selected pair has the strictly highest frequency or, on
frequency ties, the lexicographically greatest contents. -/
theorem train_selects_max_pair (vocab : List (Nat × List Nat))
    (pairs : List ((Nat × Nat) × Nat)) (e : (Nat × Nat) × Nat)
    (h : selectBestPair vocab pairs = some e) :
    e ∈ pairs ∧ ∀ q ∈ pairs, keyGtB (pairKey vocab q) (pairKey vocab e) = false := by
  match pairs, h with
  | x :: xs, h =>
    simp only [selectBestPair, Option.some.injEq] at h
    subst h
    obtain ⟨h1, h2⟩ := selectFold_not_gt vocab xs x
    exact ⟨selectFold_mem vocab xs x, fun q hq => by
      rcases List.mem_cons.mp hq with hqx | hqs
      · exact hqx ▸ h1
      · exact h2 q hqs⟩

/-- Witness for `train_selects_max_pair`: with the byte vocabulary
`0 ↦ [0], 1 ↦ [1], 2 ↦ [2]` and counts `{(0,1) ↦ 2, (1,2) ↦ 2, (2,0) ↦ 1}`,
the selection picks `(1,2)` (frequency tie with `(0,1)` broken towards
the lexicographically greater contents), and `(0,1)`'s key is not
greater than the selected key. -/
theorem train_selects_max_pair_witness :
    ((1, 2), 2) ∈ ([((0, 1), 2), ((1, 2), 2), ((2, 0), 1)] : List ((Nat × Nat) × Nat)) ∧
    keyGtB (pairKey [(0, [0]), (1, [1]), (2, [2])] ((0, 1), 2))
      (pairKey [(0, [0]), (1, [1]), (2, [2])] ((1, 2), 2)) = false :=
  ⟨(train_selects_max_pair [(0, [0]), (1, [1]), (2, [2])]
      [((0, 1), 2), ((1, 2), 2), ((2, 0), 1)] ((1, 2), 2) (by decide)).1,
   (train_selects_max_pair [(0, [0]), (1, [1]), (2, [2])]
      [((0, 1), 2), ((1, 2), 2), ((2, 0), 1)] ((1, 2), 2) (by decide)).2
      ((0, 1), 2) (by decide)⟩

/-! ## Special-token ordering (C3) -/

theorem insertByLenDesc_mem (x y : List Nat) (l : List (List Nat)) :
    y ∈ insertByLenDesc x l ↔ y = x ∨ y ∈ l := by
  induction l with
  | nil => simp [insertByLenDesc]
  | cons z zs ih =>
    simp only [insertByLenDesc]
    split
    · simp
    · simp only [List.mem_cons, ih]
      tauto

theorem sortSpecials_mem (x : List Nat) (l : List (List Nat)) :
    x ∈ sortSpecials l ↔ x ∈ l := by
  induction l with
  | nil => simp [sortSpecials]
  | cons z zs ih =>
    simp only [sortSpecials, List.foldr_cons] at ih ⊢
    rw [insertByLenDesc_mem, ih, List.mem_cons]

theorem insertByLenDesc_sorted (x : List Nat) (l : List (List Nat))
    (h : l.Pairwise (fun a b => b.length ≤ a.length)) :
    (insertByLenDesc x l).Pairwise (fun a b => b.length ≤ a.length) := by
  induction l with
  | nil => simp [insertByLenDesc]
  | cons z zs ih =>
    rw [List.pairwise_cons] at h
    obtain ⟨hz, hzs⟩ := h
    simp only [insertByLenDesc]
    split
    · rename_i hxz
      rw [List.pairwise_cons]
      refine ⟨?_, List.pairwise_cons.mpr ⟨hz, hzs⟩⟩
      intro a ha
      rcases List.mem_cons.mp ha with h | h
      · subst h; omega
      · have := hz a h
        omega
    · rename_i hxz
      rw [List.pairwise_cons]
      refine ⟨?_, ih hzs⟩
      intro a ha
      rcases (insertByLenDesc_mem x a zs).mp ha with h | h
      · subst h; omega
      · exact hz a h

theorem sortSpecials_sorted (l : List (List Nat)) :
    (sortSpecials l).Pairwise (fun a b => b.length ≤ a.length) := by
  induction l with
  | nil => simp [sortSpecials]
  | cons z zs ih => exact insertByLenDesc_sorted z (sortSpecials zs) ih

/-- In a longest-first token list, the first token that matches at a
position is at least as long as any token matching there. -/
theorem firstTokenMatch_longest (toks : List (List Nat))
    (hsorted : toks.Pairwise (fun a b => b.length ≤ a.length))
    (s t m : List Nat) (ht : t ∈ toks) (hpre : t.isPrefixOf s = true)
    (hm : firstTokenMatch toks s = some m) : t.length ≤ m.length := by
  induction toks with
  | nil => cases ht
  | cons h hs ih =>
    rw [List.pairwise_cons] at hsorted
    obtain ⟨hlen, hsorted'⟩ := hsorted
    unfold firstTokenMatch at hm
    rw [List.find?_cons] at hm
    by_cases hh : h.isPrefixOf s = true
    · rw [hh] at hm
      simp only [Option.map_some', Option.some.injEq] at hm
      subst hm
      rcases List.mem_cons.mp ht with h1 | h1
      · subst h1; exact le_rfl
      · exact hlen t h1
    · rw [Bool.not_eq_true] at hh
      rw [hh] at hm
      have ht' : t ∈ hs := by
        rcases List.mem_cons.mp ht with h1 | h1
        · subst h1; rw [hpre] at hh; cases hh
        · exact h1
      exact ih hsorted' ht' hm

/-- Claim C3 (amended): at *encode* time the special tokens are sorted
longest first (`sortSpecials`, i.e. `sorted(..., key=len, reverse=True)`)
before the alternation is built, so whenever a special token `t` matches
at a position of the text, the token actually matched by `encode`'s
splitter (`splitBySpecial (sortSpecials specials)`, whose match attempts
are `firstTokenMatch`) is at least as long as `t` — a longer special
token is never shadowed by a shorter one sharing a prefix.  (The
training pre-tokenizer does *not* sort — see the counterexample.) -/
theorem encode_special_longest_match (specials : List (List Nat))
    (s t m : List Nat) (ht : t ∈ specials) (hpre : t.isPrefixOf s = true)
    (hm : firstTokenMatch (sortSpecials specials) s = some m) :
    t.length ≤ m.length :=
  firstTokenMatch_longest (sortSpecials specials) (sortSpecials_sorted specials)
    s t m ((sortSpecials_mem t specials).mpr ht) hpre hm

/-- Witness for `encode_special_longest_match`: with special tokens
`["a", "ab"]` (shorter listed first) and input `"abc"`, the sorted
alternation matches `"ab"`, whose length bounds that of the matching
token `"a"`. -/
theorem encode_special_longest_match_witness :
    ([97] : List Nat).length ≤ ([97, 98] : List Nat).length :=
  encode_special_longest_match [[97], [97, 98]] [97, 98, 99] [97] [97, 98]
    (by decide) (by decide) (by decide)

/-- Claim C3 (counterexample): the *training* pre-tokenizer builds the
special-token alternation in the given order, without sorting.  With
`special_tokens = ["a", "ab"]` and corpus `"ab"`, the shorter token
`"a"` shadows `"ab"`: the leftover `"b"` is counted as a word, whereas
with the longest-first order `["ab", "a"]` the corpus is one atomic
special token and nothing is counted — refuting the claim that special
tokens are sorted longest-first in training pre-tokenization. -/
theorem pretokenize_not_longest_first_cex :
    pretokenizeAndCount [97, 98] [[97], [97, 98]] = [([98], 1)] ∧
    pretokenizeAndCount [97, 98] [[97, 98], [97]] = [] := by
  decide

/-! ## Trainer size invariants (C7) -/

theorem selectBestPair_eq_none (vocab : List (Nat × List Nat))
    (l : List ((Nat × Nat) × Nat)) : selectBestPair vocab l = none ↔ l = [] := by
  cases l <;> simp [selectBestPair]

theorem trainLoop_merges_le :
    ∀ (fuel : Nat) (vocab : List (Nat × List Nat))
      (merges : List (List Nat × List Nat)) (nextId : Nat)
      (wc : List (List Nat × Nat)),
      (trainLoop fuel vocab merges nextId wc).2.1.length ≤ merges.length + fuel := by
  intro fuel
  induction fuel with
  | zero => intro vocab merges nextId wc; simp [trainLoop]
  | succ fuel ih =>
    intro vocab merges nextId wc
    simp only [trainLoop]
    cases h : selectBestPair vocab (getPairStats wc) with
    | none => exact Nat.le_add_right _ _
    | some best =>
      have := ih (vocab ++ [(nextId, content vocab best.1.1 ++ content vocab best.1.2)])
        (merges ++ [(content vocab best.1.1, content vocab best.1.2)]) (nextId + 1)
        (mergeVocab wc best.1 nextId)
      simp only [List.length_append, List.length_cons, List.length_nil] at this ⊢
      omega

theorem trainLoop_vocab_keys :
    ∀ (fuel : Nat) (vocab : List (Nat × List Nat))
      (merges : List (List Nat × List Nat)) (nextId : Nat)
      (wc : List (List Nat × Nat)),
      vocab.map Prod.fst = List.range nextId →
      nextId = 256 + merges.length →
      (trainLoop fuel vocab merges nextId wc).1.map Prod.fst =
        List.range (256 + (trainLoop fuel vocab merges nextId wc).2.1.length) := by
  intro fuel
  induction fuel with
  | zero =>
    intro vocab merges nextId wc hkeys hid
    simpa [trainLoop, ← hid] using hkeys
  | succ fuel ih =>
    intro vocab merges nextId wc hkeys hid
    simp only [trainLoop]
    cases h : selectBestPair vocab (getPairStats wc) with
    | none => simpa [← hid] using hkeys
    | some best =>
      refine ih _ _ (nextId + 1) _ ?_ ?_
      · rw [List.map_append, hkeys]
        simp [List.range_succ]
      · simp only [List.length_append, List.length_cons, List.length_nil]
        omega

theorem trainLoop_full_or_exhausted :
    ∀ (fuel : Nat) (vocab : List (Nat × List Nat))
      (merges : List (List Nat × List Nat)) (nextId : Nat)
      (wc : List (List Nat × Nat)),
      (trainLoop fuel vocab merges nextId wc).2.1.length = merges.length + fuel ∨
      getPairStats (trainLoop fuel vocab merges nextId wc).2.2 = [] := by
  intro fuel
  induction fuel with
  | zero => intro vocab merges nextId wc; left; simp [trainLoop]
  | succ fuel ih =>
    intro vocab merges nextId wc
    simp only [trainLoop]
    cases h : selectBestPair vocab (getPairStats wc) with
    | none =>
      right
      exact (selectBestPair_eq_none vocab _).mp h
    | some best =>
      rcases ih (vocab ++ [(nextId, content vocab best.1.1 ++ content vocab best.1.2)])
        (merges ++ [(content vocab best.1.1, content vocab best.1.2)]) (nextId + 1)
        (mergeVocab wc best.1 nextId) with hfull | hexh
      · left
        simp only [List.length_append, List.length_cons, List.length_nil] at hfull ⊢
        omega
      · right
        exact hexh

/-- Claim C7: for every corpus, target size and special-token list, the
number of merge rules never exceeds `vocab_size - 256 - |special_tokens|`
(natural subtraction: Python's `range` over a non-positive count is
empty); the returned vocabulary has exactly
`256 + (merges performed) + |special_tokens|` entries with pairwise
distinct ids `0, 1, …`; and the loop either ran the full
`vocab_size - 256 - |special_tokens|` iterations or stopped early with
no adjacent pairs left in the final frequency table — `trainBPEFull`
returns normally in both cases, so early termination is not an error. -/
theorem train_vocab_size_bounds (text : List Nat) (vocabSize : Nat)
    (specials : List (List Nat)) :
    (trainBPEFull text vocabSize specials).2.1.length ≤
      vocabSize - 256 - specials.length ∧
    (trainBPEFull text vocabSize specials).1.length =
      256 + (trainBPEFull text vocabSize specials).2.1.length + specials.length ∧
    (trainBPEFull text vocabSize specials).1.map Prod.fst =
      List.range (256 + (trainBPEFull text vocabSize specials).2.1.length +
        specials.length) ∧
    ((trainBPEFull text vocabSize specials).2.1.length =
        vocabSize - 256 - specials.length ∨
      getPairStats (trainBPEFull text vocabSize specials).2.2 = []) := by
  have hbase : baseVocab.map Prod.fst = List.range 256 := by
    have hfn : (Prod.fst ∘ fun i : Nat => (i, [i])) = id := rfl
    rw [baseVocab, List.map_map, hfn, List.map_id]
  have hle := trainLoop_merges_le (vocabSize - 256 - specials.length) baseVocab [] 256
    (pretokenizeAndCount text specials)
  have hkeys := trainLoop_vocab_keys (vocabSize - 256 - specials.length) baseVocab [] 256
    (pretokenizeAndCount text specials) hbase (by simp)
  have hfull := trainLoop_full_or_exhausted (vocabSize - 256 - specials.length)
    baseVocab [] 256 (pretokenizeAndCount text specials)
  simp only [List.length_nil, Nat.zero_add] at hle hfull
  set r := trainLoop (vocabSize - 256 - specials.length) baseVocab [] 256
    (pretokenizeAndCount text specials) with hr
  have hspkeys : (((List.range specials.length).zip specials).map
      (fun e => (256 + r.2.1.length + e.1, utf8Encode e.2))).map Prod.fst =
      (List.range specials.length).map (fun i => 256 + r.2.1.length + i) := by
    rw [List.map_map]
    have hz : (((List.range specials.length).zip specials).map Prod.fst) =
        List.range specials.length :=
      List.map_fst_zip _ _ (by simp)
    calc ((List.range specials.length).zip specials).map
          (Prod.fst ∘ fun e => (256 + r.2.1.length + e.1, utf8Encode e.2))
        = (((List.range specials.length).zip specials).map Prod.fst).map
            (fun i => 256 + r.2.1.length + i) := by
          rw [List.map_map]; rfl
      _ = (List.range specials.length).map (fun i => 256 + r.2.1.length + i) := by
          rw [hz]
  refine ⟨hle, ?_, ?_, hfull⟩
  · have : (trainBPEFull text vocabSize specials).1.length =
        r.1.length + specials.length := by
      simp only [trainBPEFull, ← hr]
      simp
    rw [this]
    have := congrArg List.length hkeys
    simp only [List.length_map, List.length_range] at this
    simp only [trainBPEFull, ← hr]
    omega
  · simp only [trainBPEFull, ← hr]
    rw [List.map_append, hkeys, hspkeys]
    rw [← List.range_add]

/-! ## Decode (C9) -/

theorem decodeRawBytes_fold (vocab : List (Nat × List Nat)) :
    ∀ (ids : List Nat) (acc : List Nat),
      ids.foldl (fun acc id =>
        match vocabLookup vocab id with
        | some v => acc ++ v
        | none => acc) acc =
      acc ++ (ids.filterMap (vocabLookup vocab)).flatten := by
  intro ids
  induction ids with
  | nil => intro acc; simp
  | cons id rest ih =>
    intro acc
    rw [List.foldl_cons, List.filterMap_cons]
    cases h : vocabLookup vocab id with
    | none => simp only [h]; exact ih acc
    | some v =>
      simp only [h]
      rw [ih (acc ++ v), List.flatten_cons, List.append_assoc]

theorem decodeRawBytes_eq_filterMap (vocab : List (Nat × List Nat)) (ids : List Nat) :
    decodeRawBytes vocab ids = (ids.filterMap (vocabLookup vocab)).flatten := by
  unfold decodeRawBytes
  rw [decodeRawBytes_fold vocab ids []]
  simp

theorem vocabLookup_eq_none (vocab : List (Nat × List Nat)) (id : Nat)
    (h : id ∉ vocab.map Prod.fst) : vocabLookup vocab id = none := by
  unfold vocabLookup lookupAssoc
  rw [List.find?_eq_none.mpr]
  · rfl
  · intro e he hkey
    exact h (List.mem_map.mpr ⟨e, he, by simpa using hkey⟩)

/-- Claim C9: `decode` concatenates each id's vocabulary byte string in
order (`decodeRawBytes` equals the flattened sequence of successful
lookups) and an id absent from the vocabulary contributes nothing, so
removing it from the id list leaves the decoded text unchanged; the
final byte string is decoded by `utf8DecodeReplace`, which substitutes
U+FFFD for ill-formed byte sequences.  All the functions involved are
total, so `decode` returns a string for every input id list. -/
theorem decode_concat_skip_unknown (vocab : List (Nat × List Nat))
    (ids pre post : List Nat) (bad : Nat) (hbad : bad ∉ vocab.map Prod.fst) :
    decode vocab (pre ++ bad :: post) = decode vocab (pre ++ post) ∧
    decodeRawBytes vocab ids = (ids.filterMap (vocabLookup vocab)).flatten := by
  refine ⟨?_, decodeRawBytes_eq_filterMap vocab ids⟩
  unfold decode
  rw [decodeRawBytes_eq_filterMap, decodeRawBytes_eq_filterMap]
  rw [List.filterMap_append, List.filterMap_append, List.filterMap_cons]
  rw [vocabLookup_eq_none vocab bad hbad]

/-- Witness for `decode_concat_skip_unknown`: with the two-entry
vocabulary `{0 ↦ "h", 1 ↦ "i"}`, the unknown id 7 contributes nothing
and the raw bytes of `[0, 7, 1]` are the concatenation of the known
entries. -/
theorem decode_concat_skip_unknown_witness :
    decode [(0, [104]), (1, [105])] ([0] ++ 7 :: [1]) =
      decode [(0, [104]), (1, [105])] ([0] ++ [1]) ∧
    decodeRawBytes [(0, [104]), (1, [105])] [0, 7, 1] =
      (([0, 7, 1] : List Nat).filterMap
        (vocabLookup [(0, [104]), (1, [105])])).flatten :=
  ⟨(decode_concat_skip_unknown [(0, [104]), (1, [105])] [0, 7, 1] [0] [1] 7
      (by decide)).1,
   (decode_concat_skip_unknown [(0, [104]), (1, [105])] [0, 7, 1] [0] [1] 7
      (by decide)).2⟩

/-! ## Byte-level greedy merging (C8) -/

theorem candidatePairs_mem (merges : List (List Nat × List Nat))
    (parts : List (List Nat)) (i pr : Nat)
    (h : (i, pr) ∈ candidatePairs merges parts) :
    i + 1 < parts.length ∧ pairAt parts i ∈ merges ∧
      pr = idxOfPair merges (pairAt parts i) := by
  unfold candidatePairs at h
  obtain ⟨a, ha, hf⟩ := List.mem_filterMap.mp h
  have hr := List.mem_range.mp ha
  by_cases hc : pairAt parts a ∈ merges
  · rw [if_pos hc] at hf
    obtain ⟨h1, h2⟩ := Prod.mk.injEq .. ▸ Option.some.injEq .. ▸ hf
    injection hf with hf
    injection hf with hf1 hf2
    subst hf1
    exact ⟨by omega, hc, hf2.symm⟩
  · rw [if_neg hc] at hf
    cases hf

theorem candidatePairs_complete (merges : List (List Nat × List Nat))
    (parts : List (List Nat)) (i : Nat) (hi : i + 1 < parts.length)
    (hm : pairAt parts i ∈ merges) :
    (i, idxOfPair merges (pairAt parts i)) ∈ candidatePairs merges parts := by
  unfold candidatePairs
  refine List.mem_filterMap.mpr ⟨i, List.mem_range.mpr (by omega), ?_⟩
  rw [if_pos hm]

theorem candidatePairs_pairwise_fst (merges : List (List Nat × List Nat))
    (parts : List (List Nat)) :
    (candidatePairs merges parts).Pairwise (fun a b => a.1 < b.1) := by
  unfold candidatePairs
  refine List.Pairwise.filterMap _ ?_ (List.pairwise_lt_range _)
  intro a b hab x hx y hy
  by_cases hca : pairAt parts a ∈ merges
  · rw [if_pos hca] at hx
    by_cases hcb : pairAt parts b ∈ merges
    · rw [if_pos hcb] at hy
      injection hx with hx
      injection hy with hy
      rw [← hx, ← hy]
      exact hab
    · rw [if_neg hcb] at hy; cases hy
  · rw [if_neg hca] at hx; cases hx

/-- Fold form of `pickBest` once the state is occupied. -/
theorem pickBest_fold_some :
    ∀ (cs : List (Nat × Nat)) (b : Nat × Nat),
      cs.foldl (fun best c =>
        match best with
        | none => some c
        | some b => if c.2 < b.2 then some c else best) (some b) =
      some (cs.foldl (fun b c => if c.2 < b.2 then c else b) b) := by
  intro cs
  induction cs with
  | nil => intro b; rfl
  | cons c cs ih =>
    intro b
    rw [List.foldl_cons, List.foldl_cons]
    dsimp only
    by_cases h : c.2 < b.2
    · rw [if_pos h, if_pos h]
      exact ih c
    · rw [if_neg h, if_neg h]
      exact ih b

theorem pickBest_cons (c : Nat × Nat) (cs : List (Nat × Nat)) :
    pickBest (c :: cs) =
      some (cs.foldl (fun b x => if x.2 < b.2 then x else b) c) := by
  unfold pickBest
  rw [List.foldl_cons]
  exact pickBest_fold_some cs c

theorem pickBest_eq_none (l : List (Nat × Nat)) : pickBest l = none ↔ l = [] := by
  cases l with
  | nil => simp [pickBest]
  | cons c cs => rw [pickBest_cons]; simp

/-- The occupied fold returns the leftmost entry of minimal priority:
any state change is to a strictly smaller priority, and on equal
priorities the earlier position is kept. -/
theorem pickBest_fold_min :
    ∀ (cs : List (Nat × Nat)) (b : Nat × Nat),
      cs.Pairwise (fun a b => a.1 < b.1) → (∀ q ∈ cs, b.1 < q.1) →
      (cs.foldl (fun b x => if x.2 < b.2 then x else b) b = b ∨
        (cs.foldl (fun b x => if x.2 < b.2 then x else b) b ∈ cs ∧
          (cs.foldl (fun b x => if x.2 < b.2 then x else b) b).2 < b.2)) ∧
      ∀ q ∈ cs,
        (cs.foldl (fun b x => if x.2 < b.2 then x else b) b).2 ≤ q.2 ∧
        ((cs.foldl (fun b x => if x.2 < b.2 then x else b) b).2 = q.2 →
          (cs.foldl (fun b x => if x.2 < b.2 then x else b) b).1 ≤ q.1) := by
  intro cs
  induction cs with
  | nil => intro b _ _; exact ⟨Or.inl rfl, by simp⟩
  | cons c cs ih =>
    intro b hpw hpos
    rw [List.pairwise_cons] at hpw
    obtain ⟨hc, hpw'⟩ := hpw
    rw [List.foldl_cons]
    by_cases h : c.2 < b.2
    · rw [if_pos h]
      obtain ⟨ih1, ih2⟩ := ih c hpw' hc
      constructor
      · rcases ih1 with h1 | ⟨h1, h1'⟩
        · exact Or.inr ⟨by rw [h1]; exact List.mem_cons_self _ _,
            by rw [h1]; exact h⟩
        · exact Or.inr ⟨List.mem_cons_of_mem _ h1, by omega⟩
      · intro q hq
        rcases List.mem_cons.mp hq with hqc | hqs
        · subst hqc
          rcases ih1 with h1 | ⟨_, h1'⟩
          · rw [h1]; exact ⟨le_rfl, fun _ => le_rfl⟩
          · exact ⟨by omega, fun he => by omega⟩
        · exact ih2 q hqs
    · rw [if_neg h]
      obtain ⟨ih1, ih2⟩ := ih b hpw' (fun q hq => hpos q (List.mem_cons_of_mem _ hq))
      constructor
      · rcases ih1 with h1 | ⟨h1, h1'⟩
        · exact Or.inl h1
        · exact Or.inr ⟨List.mem_cons_of_mem _ h1, h1'⟩
      · intro q hq
        rcases List.mem_cons.mp hq with hqc | hqs
        · subst hqc
          have hble : (cs.foldl (fun b x => if x.2 < b.2 then x else b) b).2 ≤ b.2 := by
            rcases ih1 with h1 | ⟨_, h1'⟩
            · rw [h1]
            · omega
          refine ⟨by omega, fun he => ?_⟩
          have : cs.foldl (fun b x => if x.2 < b.2 then x else b) b = b := by
            rcases ih1 with h1 | ⟨_, h1'⟩
            · exact h1
            · omega
          rw [this]
          have := hpos q (List.mem_cons_self _ _)
          omega
        · exact ih2 q hqs

/-- Specification of `findBest`: the selected position holds a pair of
the merge list, its priority is the pair's first index in the merge
list, no candidate position has a smaller priority, and among candidates
of the same priority the selected position is leftmost. -/
theorem findBest_spec (merges : List (List Nat × List Nat))
    (parts : List (List Nat)) (i pr : Nat)
    (h : findBest merges parts = some (i, pr)) :
    i + 1 < parts.length ∧ pairAt parts i ∈ merges ∧
      pr = idxOfPair merges (pairAt parts i) ∧
      ∀ j, j + 1 < parts.length → pairAt parts j ∈ merges →
        pr ≤ idxOfPair merges (pairAt parts j) ∧
        (pr = idxOfPair merges (pairAt parts j) → i ≤ j) := by
  unfold findBest at h
  match hc : candidatePairs merges parts, h with
  | c :: cs, h =>
    rw [pickBest_cons] at h
    injection h with h
    have hpw := candidatePairs_pairwise_fst merges parts
    rw [hc, List.pairwise_cons] at hpw
    obtain ⟨hcpos, hpw'⟩ := hpw
    obtain ⟨h1, h2⟩ := pickBest_fold_min cs c hpw' hcpos
    have hmem : (i, pr) ∈ candidatePairs merges parts := by
      rw [hc]
      rcases h1 with he | ⟨he, _⟩
      · rw [← h, he]; exact List.mem_cons_self _ _
      · rw [← h]; exact List.mem_cons_of_mem _ he
    obtain ⟨hi, hpm, hpr⟩ := candidatePairs_mem merges parts i pr hmem
    refine ⟨hi, hpm, hpr, ?_⟩
    intro j hj hjm
    have hjc : (j, idxOfPair merges (pairAt parts j)) ∈ c :: cs := by
      rw [← hc]
      exact candidatePairs_complete merges parts j hj hjm
    rcases List.mem_cons.mp hjc with hjh | hjs
    · have hcj : c.1 = j := by rw [← hjh]
      have hcp : c.2 = idxOfPair merges (pairAt parts j) := by rw [← hjh]
      have hc2 : (cs.foldl (fun b x => if x.2 < b.2 then x else b) c).2 ≤ c.2 := by
        rcases h1 with he | ⟨_, he'⟩
        · rw [he]
        · omega
      rw [h] at hc2
      simp only at hc2
      constructor
      · omega
      · intro hpe
        rcases h1 with he | ⟨_, he'⟩
        · have hci : (i, pr) = c := by rw [← h, he]
          have hi1 : i = c.1 := by rw [← hci]
          omega
        · rw [h] at he'
          simp only at he'
          omega
    · have := h2 _ hjs
      rw [h] at this
      exact ⟨this.1, this.2⟩

/-- When `findBest` finds nothing, no adjacent pair is in the merge
list. -/
theorem findBest_none (merges : List (List Nat × List Nat))
    (parts : List (List Nat)) (h : findBest merges parts = none) :
    ∀ j, j + 1 < parts.length → pairAt parts j ∉ merges := by
  intro j hj hjm
  unfold findBest at h
  have := candidatePairs_complete merges parts j hj hjm
  rw [(pickBest_eq_none _).mp h] at this
  cases this

theorem parts_decomp (parts : List (List Nat)) (i : Nat) (hi : i + 1 < parts.length) :
    parts = parts.take i ++
      parts.getD i [] :: parts.getD (i + 1) [] :: parts.drop (i + 2) := by
  have h1 : i < parts.length := by omega
  have hd1 : parts.drop i = parts.getD i [] :: parts.drop (i + 1) := by
    rw [List.getD_eq_getElem parts [] h1]
    exact List.drop_eq_getElem_cons h1
  have hd2 : parts.drop (i + 1) = parts.getD (i + 1) [] :: parts.drop (i + 2) := by
    rw [List.getD_eq_getElem parts [] hi]
    exact List.drop_eq_getElem_cons hi
  conv_lhs => rw [← List.take_append_drop i parts]
  rw [hd1, hd2]

theorem mergeAt_length (parts : List (List Nat)) (i : Nat)
    (hi : i + 1 < parts.length) : (mergeAt parts i).length = parts.length - 1 := by
  unfold mergeAt
  simp only [List.length_append, List.length_take, List.length_cons,
    List.length_nil, List.length_drop]
  omega

theorem mergeAt_flatten (parts : List (List Nat)) (i : Nat)
    (hi : i + 1 < parts.length) : (mergeAt parts i).flatten = parts.flatten := by
  conv_rhs => rw [parts_decomp parts i hi]
  unfold mergeAt
  simp [List.append_assoc]

theorem mergeAt_mem (parts : List (List Nat)) (i : Nat) (q : List Nat)
    (hq : q ∈ mergeAt parts i) :
    q = parts.getD i [] ++ parts.getD (i + 1) [] ∨ q ∈ parts := by
  unfold mergeAt at hq
  rcases List.mem_append.mp hq with h | h
  · rcases List.mem_append.mp h with h1 | h1
    · exact Or.inr (List.take_subset i parts h1)
    · rcases List.mem_cons.mp h1 with h2 | h2
      · exact Or.inl h2
      · cases h2
  · exact Or.inr (List.drop_subset _ parts h)

theorem encodePartsFuel_flatten (merges : List (List Nat × List Nat)) :
    ∀ (fuel : Nat) (parts : List (List Nat)),
      (encodePartsFuel merges fuel parts).flatten = parts.flatten := by
  intro fuel
  induction fuel with
  | zero => intro parts; rfl
  | succ fuel ih =>
    intro parts
    simp only [encodePartsFuel]
    split
    · rfl
    · cases h : findBest merges parts with
      | none => rfl
      | some c =>
        obtain ⟨hi, _, _, _⟩ := findBest_spec merges parts c.1 c.2 h
        rw [ih (mergeAt parts c.1), mergeAt_flatten parts c.1 hi]

theorem encodePartsFuel_mem (merges : List (List Nat × List Nat))
    (P : List Nat → Prop) (hM : ∀ m ∈ merges, P (m.1 ++ m.2)) :
    ∀ (fuel : Nat) (parts : List (List Nat)), (∀ p ∈ parts, P p) →
      ∀ q ∈ encodePartsFuel merges fuel parts, P q := by
  intro fuel
  induction fuel with
  | zero => intro parts hP q hq; exact hP q hq
  | succ fuel ih =>
    intro parts hP q hq
    simp only [encodePartsFuel] at hq
    split at hq
    · exact hP q hq
    · cases h : findBest merges parts with
      | none => rw [h] at hq; exact hP q hq
      | some c =>
        rw [h] at hq
        obtain ⟨hi, hpm, _, _⟩ := findBest_spec merges parts c.1 c.2 h
        refine ih (mergeAt parts c.1) ?_ q hq
        intro p hp
        rcases mergeAt_mem parts c.1 p hp with h1 | h1
        · rw [h1]
          exact hM _ hpm
        · exact hP p h1

theorem encodePartsFuel_nomerge (merges : List (List Nat × List Nat)) :
    ∀ (fuel : Nat) (parts : List (List Nat)), parts.length ≤ fuel →
      ∀ j, j + 1 < (encodePartsFuel merges fuel parts).length →
        pairAt (encodePartsFuel merges fuel parts) j ∉ merges := by
  intro fuel
  induction fuel with
  | zero =>
    intro parts hf j hj
    simp only [encodePartsFuel] at hj
    omega
  | succ fuel ih =>
    intro parts hf j hj hmem
    simp only [encodePartsFuel] at hj hmem
    by_cases hlen : parts.length ≤ 1
    · rw [if_pos hlen] at hj hmem
      omega
    · rw [if_neg hlen] at hj hmem
      cases h : findBest merges parts with
      | none =>
        rw [h] at hj hmem
        exact findBest_none merges parts h j hj hmem
      | some c =>
        rw [h] at hj hmem
        obtain ⟨hi, _, _, _⟩ := findBest_spec merges parts c.1 c.2 h
        refine ih (mergeAt parts c.1) ?_ j hj hmem
        rw [mergeAt_length parts c.1 hi]
        omega

/-! ## Decoder lookups -/

theorem decoderLookup_isSome_iff (vocab : List (Nat × List Nat)) (c : List Nat) :
    (decoderLookup vocab c).isSome ↔ c ∈ vocab.map Prod.snd := by
  unfold decoderLookup
  cases hf : vocab.reverse.find? (fun e => e.2 = c) with
  | none =>
    simp only [Option.map_none', Option.isSome_none, Bool.false_eq_true, false_iff]
    intro h
    obtain ⟨e, he, hc⟩ := List.mem_map.mp h
    have := List.find?_eq_none.mp hf e (List.mem_reverse.mpr he)
    simp [hc] at this
  | some e =>
    simp only [Option.map_some', Option.isSome_some, true_iff]
    have hc : e.2 = c := by simpa using List.find?_some hf
    exact List.mem_map.mpr
      ⟨e, List.mem_reverse.mp (List.mem_of_find?_eq_some hf), hc⟩

theorem find?_key_unique (vocab : List (Nat × List Nat))
    (hnd : (vocab.map Prod.fst).Nodup) (e : Nat × List Nat) (he : e ∈ vocab) :
    vocab.find? (fun x => x.1 = e.1) = some e := by
  induction vocab with
  | nil => cases he
  | cons h t ih =>
    rw [List.map_cons, List.nodup_cons] at hnd
    obtain ⟨hh, ht⟩ := hnd
    by_cases hkey : h.1 = e.1
    · have heq : e = h := by
        rcases List.mem_cons.mp he with h1 | h1
        · exact h1
        · exact absurd (hkey ▸ List.mem_map.mpr ⟨e, h1, rfl⟩) hh
      rw [List.find?_cons_of_pos _ (by simpa using hkey), heq]
    · rw [List.find?_cons_of_neg _ (by simpa using hkey)]
      have hmem : e ∈ t := by
        rcases List.mem_cons.mp he with h1 | h1
        · exact absurd (by rw [h1] : h.1 = e.1) hkey
        · exact h1
      exact ih ht hmem

/-- The decoder is a right inverse of the vocabulary (even when
different ids share a content): whatever id the decoder assigns to a
content, that id's vocabulary entry is that content. -/
theorem decoderLookup_inverse (vocab : List (Nat × List Nat))
    (hnd : (vocab.map Prod.fst).Nodup) (c : List Nat) (id : Nat)
    (h : decoderLookup vocab c = some id) : vocabLookup vocab id = some c := by
  unfold decoderLookup at h
  rw [Option.map_eq_some'] at h
  obtain ⟨e, hfind, hid⟩ := h
  have hmem : e ∈ vocab := List.mem_reverse.mp (List.mem_of_find?_eq_some hfind)
  have hc : e.2 = c := by simpa using List.find?_some hfind
  unfold vocabLookup lookupAssoc
  have hfind2 := find?_key_unique vocab hnd e hmem
  rw [← hid, hfind2]
  simp [hc]

theorem mapM_isSome {α β : Type} (f : α → Option β) :
    ∀ l : List α, (∀ x ∈ l, (f x).isSome) → (l.mapM f).isSome := by
  intro l
  induction l with
  | nil => intro _; rfl
  | cons x t ih =>
    intro h
    have hx := h x (List.mem_cons_self _ _)
    have ht := ih fun a ha => h a (List.mem_cons_of_mem _ ha)
    obtain ⟨y, hy⟩ := Option.isSome_iff_exists.mp hx
    obtain ⟨ys, hys⟩ := Option.isSome_iff_exists.mp ht
    rw [List.mapM_cons, hy, hys]
    rfl

theorem mapM_decoder_spec (vocab : List (Nat × List Nat))
    (hnd : (vocab.map Prod.fst).Nodup) :
    ∀ l : List (List Nat), (∀ x ∈ l, x ∈ vocab.map Prod.snd) →
      ∃ ids, l.mapM (decoderLookup vocab) = some ids ∧
        ids.filterMap (vocabLookup vocab) = l := by
  intro l
  induction l with
  | nil => intro _; exact ⟨[], rfl, rfl⟩
  | cons x t ih =>
    intro h
    have hx : (decoderLookup vocab x).isSome :=
      (decoderLookup_isSome_iff vocab x).mpr (h x (List.mem_cons_self _ _))
    obtain ⟨id, hid⟩ := Option.isSome_iff_exists.mp hx
    obtain ⟨ids, hids, hfm⟩ := ih fun a ha => h a (List.mem_cons_of_mem _ ha)
    refine ⟨id :: ids, ?_, ?_⟩
    · rw [List.mapM_cons, hid, hids]
      rfl
    · rw [List.filterMap_cons, decoderLookup_inverse vocab hnd x id hid, hfm]

/-- Claim C8: the greedy per-word encode of `_encode_bytes`.
(1) Whenever the scan selects a merge (`findBest ... = some (i, pr)`),
the adjacent pair at the selected position is a key of the priority map,
its priority `pr` is its (first) index in the merge list, no candidate
position has a smaller priority, and among positions carrying the same
priority the selected one is leftmost; moreover the replacement
`mergeAt` shortens the symbol sequence by exactly one, which is why the
loop terminates on every input (fuel `parts.length` suffices, as
`encodeParts` uses).  (2) The loop stops exactly when no adjacent pair
is in the map: no adjacent pair of the final sequence is in the merge
list.  (3) When every byte of the word and every merge's concatenation
have vocabulary entries, the final reverse-mapping lookup succeeds for
every final symbol, so `_encode_bytes` returns ids without failure. -/
theorem encode_bytes_greedy_correct (vocab : List (Nat × List Nat))
    (merges : List (List Nat × List Nat)) (wordBytes : List Nat)
    (h1 : ∀ b ∈ wordBytes, [b] ∈ vocab.map Prod.snd)
    (h2 : ∀ m ∈ merges, m.1 ++ m.2 ∈ vocab.map Prod.snd) :
    (∀ (parts : List (List Nat)) (i pr : Nat),
      findBest merges parts = some (i, pr) →
      pairAt parts i ∈ merges ∧ pr = idxOfPair merges (pairAt parts i) ∧
      i + 1 < parts.length ∧ (mergeAt parts i).length = parts.length - 1 ∧
      ∀ j, j + 1 < parts.length → pairAt parts j ∈ merges →
        pr ≤ idxOfPair merges (pairAt parts j) ∧
        (pr = idxOfPair merges (pairAt parts j) → i ≤ j)) ∧
    (∀ j, j + 1 < (encodeParts merges (wordBytes.map (fun b => [b]))).length →
      pairAt (encodeParts merges (wordBytes.map (fun b => [b]))) j ∉ merges) ∧
    (encodeWordIds vocab merges wordBytes).isSome := by
  refine ⟨?_, ?_, ?_⟩
  · intro parts i pr h
    obtain ⟨hi, hpm, hpr, hmin⟩ := findBest_spec merges parts i pr h
    exact ⟨hpm, hpr, hi, mergeAt_length parts i hi, hmin⟩
  · exact encodePartsFuel_nomerge merges _ _ le_rfl
  · unfold encodeWordIds
    refine mapM_isSome _ _ ?_
    intro p hp
    rw [decoderLookup_isSome_iff]
    refine encodePartsFuel_mem merges (fun q => q ∈ vocab.map Prod.snd) h2 _ _
      ?_ p hp
    intro q hq
    obtain ⟨b, hb, hbq⟩ := List.mem_map.mp hq
    rw [← hbq]
    exact h1 b hb

/-- Witness for `encode_bytes_greedy_correct`: the vocabulary
`{104 ↦ "h", 105 ↦ "i", 256 ↦ "hi"}` with the single merge
`("h", "i")` encodes the word bytes `"hi"` without failure, and the
selected merge at `[["h"], ["i"]]` has priority 0, the pair's index in
the merge list. -/
theorem encode_bytes_greedy_correct_witness :
    (encodeWordIds [(104, [104]), (105, [105]), (256, [104, 105])]
      [([104], [105])] [104, 105]).isSome ∧
    (0 : Nat) = idxOfPair [([104], [105])] (pairAt [[104], [105]] 0) :=
  ⟨(encode_bytes_greedy_correct [(104, [104]), (105, [105]), (256, [104, 105])]
      [([104], [105])] [104, 105] (by decide) (by decide)).2.2,
   ((encode_bytes_greedy_correct [(104, [104]), (105, [105]), (256, [104, 105])]
      [([104], [105])] [104, 105] (by decide) (by decide)).1
      [[104], [105]] 0 0 (by decide)).2.1⟩

/-! ## The word pattern covers the text (C4) -/

theorem orElse_eq_some' {α : Type} (o : Option α) (f : Unit → Option α) (v : α)
    (h : o.orElse f = some v) : o = some v ∨ (o = none ∧ f () = some v) := by
  cases o with
  | none => exact Or.inr ⟨rfl, h⟩
  | some x => exact Or.inl h

theorem orElse_isSome' {α : Type} (o : Option α) (f : Unit → Option α) :
    (o.orElse f).isSome = (o.isSome || (f ()).isSome) := by
  cases o <;> rfl

theorem tryContraction_some (s tok rest : List Nat)
    (h : tryContraction s = some (tok, rest)) : tok ≠ [] ∧ tok ++ rest = s := by
  unfold tryContraction at h
  split at h
  · rename_i d r
    split at h
    · injection h with h
      injection h with h1 h2
      subst h1 h2
      exact ⟨by simp, rfl⟩
    · split at h <;>
        first
          | (simp only [Option.some.injEq, Prod.mk.injEq] at h
             obtain ⟨h1, h2⟩ := h
             subst h1
             subst h2
             rename_i heq
             refine ⟨by simp, ?_⟩
             rw [heq]
             rfl)
          | exact absurd h (by simp)
  · cases h

theorem optSpace_append (s : List Nat) : (optSpace s).1 ++ (optSpace s).2 = s := by
  unfold optSpace
  split <;> rfl

theorem tryClassRun_some (p : Nat → Bool) (s tok rest : List Nat)
    (h : tryClassRun p s = some (tok, rest)) : tok ≠ [] ∧ tok ++ rest = s := by
  simp only [tryClassRun] at h
  split at h
  · cases h
  · rename_i hrun
    injection h with h
    injection h with h1 h2
    subst h1 h2
    constructor
    · intro hcon
      exact hrun (List.append_eq_nil.mp hcon).2
    · rw [List.append_assoc, List.takeWhile_append_dropWhile]
      exact optSpace_append s

theorem trySpaceNoTrail_some (s tok rest : List Nat)
    (h : trySpaceNoTrail s = some (tok, rest)) : tok ≠ [] ∧ tok ++ rest = s := by
  simp only [trySpaceNoTrail] at h
  split at h
  · cases h
  · rename_i hrun
    split at h
    · rename_i hrest
      injection h with h
      injection h with h1 h2
      subst h1 h2
      refine ⟨hrun, ?_⟩
      rw [List.append_nil]
      conv_rhs => rw [← List.takeWhile_append_dropWhile (p := isWsCp) (l := s)]
      rw [hrest, List.append_nil]
    · split at h
      · rename_i hlen
        injection h with h
        injection h with h1 h2
        subst h1 h2
        have hne : s.takeWhile isWsCp ≠ [] := hrun
        have hlast : (s.takeWhile isWsCp).getLastD 0 =
            (s.takeWhile isWsCp).getLast hne := by
          rw [List.getLastD_eq_getLast?, List.getLast?_eq_getLast _ hne]
          rfl
        constructor
        · intro hcon
          have := congrArg List.length hcon
          simp [List.length_dropLast] at this
          omega
        · calc (s.takeWhile isWsCp).dropLast ++
                ((s.takeWhile isWsCp).getLastD 0 :: s.dropWhile isWsCp)
              = ((s.takeWhile isWsCp).dropLast ++ [(s.takeWhile isWsCp).getLastD 0]) ++
                  s.dropWhile isWsCp := by
                rw [List.append_assoc]
                rfl
            _ = s.takeWhile isWsCp ++ s.dropWhile isWsCp := by
                rw [hlast, List.dropLast_append_getLast hne]
            _ = s := List.takeWhile_append_dropWhile _ _
      · cases h

theorem trySpaces_some (s tok rest : List Nat)
    (h : trySpaces s = some (tok, rest)) : tok ≠ [] ∧ tok ++ rest = s := by
  simp only [trySpaces] at h
  split at h
  · cases h
  · rename_i hrun
    injection h with h
    injection h with h1 h2
    subst h1 h2
    exact ⟨hrun, List.takeWhile_append_dropWhile _ _⟩

/-- Every successful match of the word pattern consumes a non-empty
prefix. -/
theorem matchOne_decomp (s tok rest : List Nat)
    (h : matchOne s = some (tok, rest)) : tok ≠ [] ∧ tok ++ rest = s := by
  unfold matchOne at h
  rcases orElse_eq_some' _ _ _ h with h1 | ⟨_, h⟩
  · exact tryContraction_some s tok rest h1
  rcases orElse_eq_some' _ _ _ h with h1 | ⟨_, h⟩
  · exact tryClassRun_some isLetterCp s tok rest h1
  rcases orElse_eq_some' _ _ _ h with h1 | ⟨_, h⟩
  · exact tryClassRun_some isDigitCp s tok rest h1
  rcases orElse_eq_some' _ _ _ h with h1 | ⟨_, h⟩
  · exact tryClassRun_some isOtherCp s tok rest h1
  rcases orElse_eq_some' _ _ _ h with h1 | ⟨_, h⟩
  · exact trySpaceNoTrail_some s tok rest h1
  exact trySpaces_some s tok rest h

theorem optSpace_not_space (c : Nat) (s : List Nat) (hc : c ≠ 32) :
    optSpace (c :: s) = ([], c :: s) := by
  unfold optSpace
  split
  · rename_i r heq
    injection heq with h1 _
    exact absurd h1 hc
  · rfl

theorem tryClassRun_isSome_of_head (p : Nat → Bool) (c : Nat) (s : List Nat)
    (hc : p c = true) (hc32 : c ≠ 32) : (tryClassRun p (c :: s)).isSome := by
  simp only [tryClassRun, optSpace_not_space c s hc32]
  rw [List.takeWhile_cons_of_pos hc]
  simp

theorem trySpaces_isSome_of_ws (c : Nat) (s : List Nat) (hc : isWsCp c = true) :
    (trySpaces (c :: s)).isSome := by
  simp only [trySpaces]
  rw [List.takeWhile_cons_of_pos hc]
  simp

/-- Every alternative class (whitespace, letter, digit, other) is
covered, so the word pattern matches at every position: `re.findall`
never skips a character of the text. -/
theorem matchOne_total (c : Nat) (s : List Nat) : (matchOne (c :: s)).isSome := by
  unfold matchOne
  rw [orElse_isSome', orElse_isSome', orElse_isSome', orElse_isSome', orElse_isSome']
  by_cases hw : isWsCp c = true
  · rw [trySpaces_isSome_of_ws c s hw]
    simp
  · have hc32 : c ≠ 32 := fun he => hw (by rw [he]; decide)
    by_cases hl : isLetterCp c = true
    · rw [tryClassRun_isSome_of_head isLetterCp c s hl hc32]
      simp
    · by_cases hd : isDigitCp c = true
      · rw [tryClassRun_isSome_of_head isDigitCp c s hd hc32]
        simp
      · have ho : isOtherCp c = true := by
          simp only [isOtherCp, Bool.not_eq_true] at *
          simp [hw, hl, hd]
        rw [tryClassRun_isSome_of_head isOtherCp c s ho hc32]
        simp

/-- The tokens returned by `re.findall` with the word pattern
concatenate back to the input. -/
theorem findallFuel_flatten :
    ∀ (fuel : Nat) (s : List Nat), s.length ≤ fuel →
      (findallFuel fuel s).flatten = s := by
  intro fuel
  induction fuel with
  | zero =>
    intro s hs
    have : s = [] := List.eq_nil_of_length_eq_zero (by omega)
    subst this
    rfl
  | succ fuel ih =>
    intro s hs
    match s with
    | [] => rfl
    | c :: cs =>
      simp only [findallFuel]
      cases hm : matchOne (c :: cs) with
      | none => exact absurd (hm ▸ matchOne_total c cs) (by simp)
      | some tr =>
        obtain ⟨hne, happ⟩ := matchOne_decomp (c :: cs) tr.1 tr.2 (by rw [hm])
        have hlen : tr.2.length ≤ fuel := by
          have := congrArg List.length happ
          simp only [List.length_append, List.length_cons] at this hs
          have htok : 1 ≤ tr.1.length := by
            cases htr : tr.1 with
            | nil => exact absurd htr hne
            | cons a l => simp
          omega
        rw [List.flatten_cons, ih tr.2 hlen, happ]

theorem findall_flatten (s : List Nat) : (findall s).flatten = s :=
  findallFuel_flatten s.length s le_rfl

/-! ## Special-token splitting concatenates back (C4) -/

theorem findFirstMatch_decomp (toks : List (List Nat)) :
    ∀ (s pre m rest : List Nat), findFirstMatch toks s = some (pre, m, rest) →
      pre ++ m ++ rest = s := by
  intro s
  induction s with
  | nil => intro pre m rest h; cases h
  | cons c cs ih =>
    intro pre m rest h
    simp only [findFirstMatch] at h
    cases hf : firstTokenMatch toks (c :: cs) with
    | some t =>
      rw [hf] at h
      injection h with h
      simp only [Prod.mk.injEq] at h
      obtain ⟨rfl, rfl, rfl⟩ := h
      have hpre : t <+: (c :: cs) :=
        List.isPrefixOf_iff_prefix.mp (by simpa using List.find?_some hf)
      conv_rhs => rw [← List.take_append_drop t.length (c :: cs)]
      simp only [List.nil_append]
      congr 1
      exact List.prefix_iff_eq_take.mp hpre
    | none =>
      rw [hf] at h
      cases hrec : findFirstMatch toks cs with
      | none => rw [hrec] at h; cases h
      | some r =>
        rw [hrec] at h
        simp only [Option.map_some'] at h
        injection h with h
        simp only [Prod.mk.injEq] at h
        obtain ⟨rfl, rfl, rfl⟩ := h
        have := ih r.1 r.2.1 r.2.2 (by rw [hrec])
        simpa using congrArg (c :: ·) this

theorem splitBySpecialFuel_flatten (toks : List (List Nat)) :
    ∀ (fuel : Nat) (s : List Nat), (splitBySpecialFuel toks fuel s).flatten = s := by
  intro fuel
  induction fuel with
  | zero => intro s; simp [splitBySpecialFuel]
  | succ fuel ih =>
    intro s
    simp only [splitBySpecialFuel]
    cases hf : findFirstMatch toks s with
    | none => simp
    | some r =>
      have := findFirstMatch_decomp toks s r.1 r.2.1 r.2.2 (by rw [hf])
      simp only [List.flatten_cons, ih r.2.2]
      rw [← List.append_assoc]
      exact this

/-- The segments produced by `re.split` concatenate back to the input. -/
theorem splitBySpecial_flatten (toks : List (List Nat)) (text : List Nat) :
    (splitBySpecial toks text).flatten = text :=
  splitBySpecialFuel_flatten toks (text.length + 1) text

/-! ## UTF-8 round trip (C4) -/
theorem dec1 (b0 : Nat) (rest : List Nat) (h : b0 < 0x80) :
    utf8DecodeOne (b0 :: rest) = some (b0, rest) := by
  simp only [utf8DecodeOne]
  rw [if_pos h]

theorem dec2 (b0 b1 : Nat) (rest : List Nat) (h0 : 0xC2 ≤ b0) (h0' : b0 < 0xE0)
    (h1 : 0x80 ≤ b1) (h1' : b1 < 0xC0) :
    utf8DecodeOne (b0 :: b1 :: rest) = some ((b0 - 0xC0) * 64 + (b1 - 0x80), rest) := by
  simp only [utf8DecodeOne]
  rw [if_neg (by omega), if_neg (by omega), if_pos h0']
  rw [if_pos ⟨h1, h1'⟩]

theorem dec3 (b0 b1 b2 : Nat) (rest : List Nat) (h0 : 0xE0 ≤ b0) (h0' : b0 < 0xF0)
    (h1 : (if b0 = 0xE0 then 0xA0 else 0x80) ≤ b1)
    (h1' : b1 ≤ (if b0 = 0xED then 0x9F else 0xBF))
    (h2 : 0x80 ≤ b2) (h2' : b2 < 0xC0) :
    utf8DecodeOne (b0 :: b1 :: b2 :: rest) =
      some ((b0 - 0xE0) * 4096 + (b1 - 0x80) * 64 + (b2 - 0x80), rest) := by
  simp only [utf8DecodeOne]
  rw [if_neg (by omega), if_neg (by omega), if_neg (by omega), if_pos h0']
  rw [if_pos ⟨h1, h1'⟩]
  rw [if_pos ⟨h2, h2'⟩]

theorem dec4 (b0 b1 b2 b3 : Nat) (rest : List Nat) (h0 : 0xF0 ≤ b0) (h0' : b0 < 0xF5)
    (h1 : (if b0 = 0xF0 then 0x90 else 0x80) ≤ b1)
    (h1' : b1 ≤ (if b0 = 0xF4 then 0x8F else 0xBF))
    (h2 : 0x80 ≤ b2) (h2' : b2 < 0xC0) (h3 : 0x80 ≤ b3) (h3' : b3 < 0xC0) :
    utf8DecodeOne (b0 :: b1 :: b2 :: b3 :: rest) =
      some ((b0 - 0xF0) * 262144 + (b1 - 0x80) * 4096 + (b2 - 0x80) * 64 + (b3 - 0x80),
        rest) := by
  simp only [utf8DecodeOne]
  rw [if_neg (by omega), if_neg (by omega), if_neg (by omega), if_neg (by omega),
    if_pos h0']
  rw [if_pos ⟨h1, h1'⟩]
  rw [if_pos ⟨h2, h2'⟩]
  rw [if_pos ⟨h3, h3'⟩]

theorem utf8EncodeChar_ne_nil (c : Nat) : utf8EncodeChar c ≠ [] := by
  unfold utf8EncodeChar
  split
  · simp
  · split
    · simp
    · split <;> simp

theorem utf8DecodeOne_encodeChar (c : Nat) (hv : validCp c) (rest : List Nat) :
    utf8DecodeOne (utf8EncodeChar c ++ rest) = some (c, rest) := by
  obtain ⟨hlt, hsur⟩ := hv
  by_cases h1 : c < 0x80
  · simp only [utf8EncodeChar, if_pos h1, List.cons_append, List.nil_append]
    exact dec1 c rest h1
  · by_cases h2 : c < 0x800
    · simp only [utf8EncodeChar, if_neg h1, if_pos h2, List.cons_append,
        List.nil_append]
      rw [dec2 _ _ rest (by omega) (by omega) (by omega) (by omega)]
      have hval : ((0xC0 + c / 64) - 0xC0) * 64 + ((0x80 + c % 64) - 0x80) = c := by
        omega
      rw [hval]
    · by_cases h3 : c < 0x10000
      · simp only [utf8EncodeChar, if_neg h1, if_neg h2, if_pos h3, List.cons_append,
          List.nil_append]
        rw [dec3 _ _ _ rest (by omega) (by omega) (by split <;> omega)
          (by split <;> omega) (by omega) (by omega)]
        have hval : ((0xE0 + c / 4096) - 0xE0) * 4096 +
            ((0x80 + (c / 64) % 64) - 0x80) * 64 + ((0x80 + c % 64) - 0x80) = c := by
          omega
        rw [hval]
      · simp only [utf8EncodeChar, if_neg h1, if_neg h2, if_neg h3, List.cons_append,
          List.nil_append]
        rw [dec4 _ _ _ _ rest (by omega) (by omega) (by split <;> omega)
          (by split <;> omega) (by omega) (by omega) (by omega) (by omega)]
        have hval : ((0xF0 + c / 262144) - 0xF0) * 262144 +
            ((0x80 + (c / 4096) % 64) - 0x80) * 4096 +
            ((0x80 + (c / 64) % 64) - 0x80) * 64 + ((0x80 + c % 64) - 0x80) = c := by
          omega
        rw [hval]

theorem utf8DecodeReplaceFuel_encode :
    ∀ (s : List Nat) (fuel : Nat), (∀ c ∈ s, validCp c) →
      (utf8Encode s).length ≤ fuel → utf8DecodeReplaceFuel fuel (utf8Encode s) = s := by
  intro s
  induction s with
  | nil =>
    intro fuel _ _
    cases fuel <;> rfl
  | cons c cs ih =>
    intro fuel hv hf
    have henc : utf8Encode (c :: cs) = utf8EncodeChar c ++ utf8Encode cs := by
      simp [utf8Encode]
    have hne : 1 ≤ (utf8EncodeChar c).length := by
      cases hc : utf8EncodeChar c with
      | nil => exact absurd hc (utf8EncodeChar_ne_nil c)
      | cons a l => simp
    rw [henc] at hf ⊢
    simp only [List.length_append] at hf
    cases fuel with
    | zero => omega
    | succ fuel =>
      simp only [utf8DecodeReplaceFuel]
      rw [utf8DecodeOne_encodeChar c (hv c (List.mem_cons_self _ _)) (utf8Encode cs)]
      dsimp only
      rw [ih fuel (fun a ha => hv a (List.mem_cons_of_mem _ ha)) (by omega)]

theorem utf8DecodeReplace_encode (s : List Nat) (hv : ∀ c ∈ s, validCp c) :
    utf8DecodeReplace (utf8Encode s) = s :=
  utf8DecodeReplaceFuel_encode s (utf8Encode s).length hv le_rfl

/-! ## Round trip assembly (C4) -/

theorem utf8Encode_append (a b : List Nat) :
    utf8Encode (a ++ b) = utf8Encode a ++ utf8Encode b := by
  simp [utf8Encode]

theorem flatten_map_singleton (l : List Nat) :
    (l.map (fun b => [b])).flatten = l := by
  induction l with
  | nil => rfl
  | cons x t ih => simp [ih]

theorem utf8_mem_flatten (b : Nat) (x : List Nat) (xs : List (List Nat))
    (hx : x ∈ xs) (hb : b ∈ utf8Encode x) : b ∈ utf8Encode xs.flatten := by
  unfold utf8Encode at hb ⊢
  obtain ⟨l, hl, hbl⟩ := List.mem_flatten.mp hb
  obtain ⟨ch, hch, hence⟩ := List.mem_map.mp hl
  refine List.mem_flatten.mpr ⟨l, ?_, hbl⟩
  rw [← hence]
  exact List.mem_map.mpr ⟨ch, List.mem_flatten.mpr ⟨x, hx, hch⟩, rfl⟩

theorem lookupAssoc_cons {α β : Type} [DecidableEq α] (e : α × β)
    (t : List (α × β)) (k : α) :
    lookupAssoc (e :: t) k = if e.1 = k then some e.2 else lookupAssoc t k := by
  unfold lookupAssoc
  by_cases h : e.1 = k
  · rw [List.find?_cons_of_pos _ (by simpa using h), if_pos h]
    rfl
  · rw [List.find?_cons_of_neg _ (by simpa using h), if_neg h]

theorem lookupAssoc_setAssoc {α β : Type} [DecidableEq α] (l : List (α × β))
    (k k' : α) (v : β) :
    lookupAssoc (setAssoc l k v) k' =
      if k' = k then some v else lookupAssoc l k' := by
  induction l with
  | nil =>
    show lookupAssoc [(k, v)] k' = _
    rw [lookupAssoc_cons]
    by_cases h : k' = k
    · rw [if_pos (show k = k' from h.symm), if_pos h]
    · rw [if_neg (fun hh => h hh.symm), if_neg h]
  | cons e t ih =>
    simp only [setAssoc]
    by_cases he : e.1 = k
    · rw [if_pos he, lookupAssoc_cons, lookupAssoc_cons]
      by_cases h : k' = k
      · rw [if_pos (show k = k' from h.symm), if_pos h]
      · rw [if_neg (fun hh => h hh.symm), if_neg h,
          if_neg (show ¬e.1 = k' from by rw [he]; exact fun hh => h hh.symm)]
    · rw [if_neg he, lookupAssoc_cons, lookupAssoc_cons, ih]
      by_cases h : k' = k
      · rw [if_pos h, if_pos h,
          if_neg (show ¬e.1 = k' from by rw [h]; exact he)]
      · by_cases he' : e.1 = k'
        · rw [if_pos he', if_neg h, if_pos he']
        · rw [if_neg he', if_neg h, if_neg h, if_neg he']

/-- Every id recorded in `special_token_ids` is the decoder's id for the
token's UTF-8 bytes. -/
theorem specialTokenIds_lookup (vocab : List (Nat × List Nat)) :
    ∀ (toks : List (List Nat)) (acc : List (List Nat × Nat)),
      (∀ k id, lookupAssoc acc k = some id →
        decoderLookup vocab (utf8Encode k) = some id) →
      ∀ k id,
        lookupAssoc (toks.foldl (fun acc t =>
          match decoderLookup vocab (utf8Encode t) with
          | some id => setAssoc acc t id
          | none => acc) acc) k = some id →
        decoderLookup vocab (utf8Encode k) = some id := by
  intro toks
  induction toks with
  | nil => intro acc hacc k id h; exact hacc k id h
  | cons t ts ih =>
    intro acc hacc k id h
    rw [List.foldl_cons] at h
    cases hd : decoderLookup vocab (utf8Encode t) with
    | none =>
      rw [hd] at h
      exact ih acc hacc k id h
    | some i =>
      rw [hd] at h
      refine ih (setAssoc acc t i) ?_ k id h
      intro k' id' h'
      rw [lookupAssoc_setAssoc] at h'
      by_cases hk : k' = t
      · rw [if_pos hk] at h'
        injection h' with h'
        rw [hk, hd, h']
      · rw [if_neg hk] at h'
        exact hacc k' id' h'

theorem specialTokenIds_some (vocab : List (Nat × List Nat))
    (specials : List (List Nat)) (k : List Nat) (id : Nat)
    (h : lookupAssoc (specialTokenIds vocab specials) k = some id) :
    decoderLookup vocab (utf8Encode k) = some id :=
  specialTokenIds_lookup vocab specials [] (fun _ _ h' => by cases h') k id h

theorem specialTokenIds_none (vocab : List (Nat × List Nat))
    (specials : List (List Nat)) (t : List Nat)
    (h : decoderLookup vocab (utf8Encode t) = none) :
    lookupAssoc (specialTokenIds vocab specials) t = none := by
  cases hl : lookupAssoc (specialTokenIds vocab specials) t with
  | none => rfl
  | some id =>
    have := specialTokenIds_some vocab specials t id hl
    rw [h] at this
    cases this

/-- Python `_encode_bytes` succeeds and its ids decode back to the word's
bytes. -/
theorem encodeWordIds_spec (vocab : List (Nat × List Nat))
    (merges : List (List Nat × List Nat)) (hnd : (vocab.map Prod.fst).Nodup)
    (hm : ∀ m ∈ merges, m.1 ++ m.2 ∈ vocab.map Prod.snd) (wb : List Nat)
    (hb : ∀ b ∈ wb, [b] ∈ vocab.map Prod.snd) :
    ∃ ids, encodeWordIds vocab merges wb = some ids ∧
      (ids.filterMap (vocabLookup vocab)).flatten = wb := by
  have hparts : ∀ p ∈ encodeParts merges (wb.map (fun b => [b])),
      p ∈ vocab.map Prod.snd := by
    refine encodePartsFuel_mem merges (fun q => q ∈ vocab.map Prod.snd) hm _ _ ?_
    intro q hq
    obtain ⟨b, hb', hbq⟩ := List.mem_map.mp hq
    rw [← hbq]
    exact hb b hb'
  obtain ⟨ids, hids, hfm⟩ := mapM_decoder_spec vocab hnd _ hparts
  refine ⟨ids, hids, ?_⟩
  rw [hfm]
  unfold encodeParts
  rw [encodePartsFuel_flatten merges _ _]
  exact flatten_map_singleton wb

/-- Generic assembly step: when every element of a list encodes to ids
that decode back to the element's UTF-8 bytes, the `mapM` over the list
succeeds and the concatenated ids decode back to the concatenation. -/
theorem mapM_concat_spec (vocab : List (Nat × List Nat))
    (f : List Nat → Option (List Nat)) :
    ∀ (xs : List (List Nat)),
      (∀ x ∈ xs, ∃ ids, f x = some ids ∧
        (ids.filterMap (vocabLookup vocab)).flatten = utf8Encode x) →
      ∃ idss, xs.mapM f = some idss ∧
        ((idss.flatten).filterMap (vocabLookup vocab)).flatten =
          utf8Encode xs.flatten := by
  intro xs
  induction xs with
  | nil => intro _; exact ⟨[], rfl, rfl⟩
  | cons x t ih =>
    intro h
    obtain ⟨ids, hids, hdec⟩ := h x (List.mem_cons_self _ _)
    obtain ⟨idss, hidss, hdecs⟩ := ih fun a ha => h a (List.mem_cons_of_mem _ ha)
    refine ⟨ids :: idss, ?_, ?_⟩
    · rw [List.mapM_cons, hids, hidss]
      rfl
    · rw [List.flatten_cons, List.filterMap_append, List.flatten_append,
        hdec, hdecs, List.flatten_cons, utf8Encode_append]

/-- The plain-segment path of `encode` succeeds and decodes back to the
segment's bytes. -/
theorem encodePlainSeg_spec (vocab : List (Nat × List Nat))
    (merges : List (List Nat × List Nat)) (hnd : (vocab.map Prod.fst).Nodup)
    (hm : ∀ m ∈ merges, m.1 ++ m.2 ∈ vocab.map Prod.snd) (seg : List Nat)
    (hb : ∀ b ∈ utf8Encode seg, [b] ∈ vocab.map Prod.snd) :
    ∃ ids, encodePlainSeg vocab merges seg = some ids ∧
      (ids.filterMap (vocabLookup vocab)).flatten = utf8Encode seg := by
  have hwords : ∀ w ∈ findall seg,
      ∃ ids, (if w = [] then some [] else encodeWordIds vocab merges (utf8Encode w)) =
          some ids ∧
        (ids.filterMap (vocabLookup vocab)).flatten = utf8Encode w := by
    intro w hw
    by_cases hwe : w = []
    · subst hwe
      exact ⟨[], by rw [if_pos rfl], rfl⟩
    · rw [if_neg hwe]
      refine encodeWordIds_spec vocab merges hnd hm (utf8Encode w) ?_
      intro b hbw
      refine hb b ?_
      have := utf8_mem_flatten b w (findall seg) hw hbw
      rwa [findall_flatten] at this
  obtain ⟨idss, hidss, hdec⟩ := mapM_concat_spec vocab _ (findall seg) hwords
  refine ⟨idss.flatten, ?_, ?_⟩
  · unfold encodePlainSeg
    rw [hidss]
    rfl
  · rw [hdec, findall_flatten]

/-- Claim C4: for every text whose characters are valid Unicode scalars,
whose UTF-8 bytes all have vocabulary entries, with a well-formed merge
list (each merge's concatenation is in the vocabulary, as the
`Tokenizer` constructor requires to build `merge_map`) and a duplicate
free id set (as any Python dict has), `decode (encode text) = text`:
special segments decode to the special token's bytes through the
reserved id, plain segments decode word by word through the byte-level
BPE, the segments concatenate back to the text, and UTF-8 decoding
inverts UTF-8 encoding. -/
theorem decode_encode_roundtrip (vocab : List (Nat × List Nat))
    (merges : List (List Nat × List Nat)) (specials : List (List Nat))
    (text : List Nat) (hnd : (vocab.map Prod.fst).Nodup)
    (hvalid : ∀ c ∈ text, validCp c)
    (hb : ∀ b ∈ utf8Encode text, [b] ∈ vocab.map Prod.snd)
    (hm : ∀ m ∈ merges, m.1 ++ m.2 ∈ vocab.map Prod.snd) :
    ∃ ids, encode vocab merges specials text = some ids ∧
      decode vocab ids = text := by
  set stIds := specialTokenIds vocab specials with hstIds
  set segs := if specials = [] then [text]
    else splitBySpecial (sortSpecials specials) text with hsegs
  have hflat : segs.flatten = text := by
    rw [hsegs]
    split
    · simp
    · exact splitBySpecial_flatten _ text
  have hsegP : ∀ seg ∈ segs,
      ∃ ids, (match lookupAssoc stIds seg with
        | some id => some [id]
        | none => if seg = [] then some [] else encodePlainSeg vocab merges seg) =
          some ids ∧
        (ids.filterMap (vocabLookup vocab)).flatten = utf8Encode seg := by
    intro seg hseg
    cases hl : lookupAssoc stIds seg with
    | some id =>
      refine ⟨[id], rfl, ?_⟩
      have hdec := specialTokenIds_some vocab specials seg id (hstIds ▸ hl)
      have hinv := decoderLookup_inverse vocab hnd (utf8Encode seg) id hdec
      simp [List.filterMap_cons, hinv]
    | none =>
      by_cases hse : seg = []
      · subst hse
        exact ⟨[], by rw [if_pos rfl], rfl⟩
      · rw [if_neg hse]
        refine encodePlainSeg_spec vocab merges hnd hm seg ?_
        intro b hbs
        refine hb b ?_
        have := utf8_mem_flatten b seg segs hseg hbs
        rwa [hflat] at this
  obtain ⟨idss, hidss, hdec⟩ := mapM_concat_spec vocab _ segs hsegP
  have hencode : encode vocab merges specials text =
      (segs.mapM (fun seg =>
        match lookupAssoc stIds seg with
        | some id => some [id]
        | none => if seg = [] then some []
            else encodePlainSeg vocab merges seg)).map List.flatten := by
    rw [hstIds, hsegs]
    rfl
  refine ⟨idss.flatten, ?_, ?_⟩
  · rw [hencode, hidss]
    rfl
  · unfold decode
    rw [decodeRawBytes_eq_filterMap, hdec, hflat]
    exact utf8DecodeReplace_encode text hvalid

/-- Witness for `decode_encode_roundtrip`: the two-entry vocabulary
`{104 ↦ "h", 105 ↦ "i"}` with no merges and no special tokens round
trips the text `"hi"`. -/
theorem decode_encode_roundtrip_witness :
    ∃ ids, encode [(104, [104]), (105, [105])] [] [] [104, 105] = some ids ∧
      decode [(104, [104]), (105, [105])] ids = [104, 105] :=
  decode_encode_roundtrip [(104, [104]), (105, [105])] [] [] [104, 105]
    (by decide) (by decide) (by decide) (by decide)

/-! ## Streaming encode divergence (C1) -/

/-- Claim C1 (failing input): with the vocabulary
`{39 ↦ "'", 105 ↦ "i", 108 ↦ "l", 116 ↦ "t", 256 ↦ "'l"}` and the single
merge `("'", "l")`, splitting the text `"it'll"` into the chunks
`["it'l", "l"]` makes `encode_iterable` yield
`[105, 116, 39, 108, 108]` while `encode` on the concatenation yields
`[105, 116, 256, 108]`: the chunk loop tokenizes the incomplete buffer
`"it'l"` as `"it"·"'"·"l"` and emits `"'"` as a finished word, although
in the full text the word is `"'ll"`, whose first merge joins `"'"`
with the following `"l"`.  This refutes the streaming-equivalence
contract. -/
theorem encode_iterable_diverges :
    encodeIterable
        [(39, [39]), (105, [105]), (108, [108]), (116, [116]), (256, [39, 108])]
        [([39], [108])] [] [[105, 116, 39, 108], [108]] =
      some [105, 116, 39, 108, 108] ∧
    encode [(39, [39]), (105, [105]), (108, [108]), (116, [116]), (256, [39, 108])]
        [([39], [108])] [] ([[105, 116, 39, 108], [108]] : List (List Nat)).flatten =
      some [105, 116, 256, 108] ∧
    encodeIterable
        [(39, [39]), (105, [105]), (108, [108]), (116, [116]), (256, [39, 108])]
        [([39], [108])] [] [[105, 116, 39, 108], [108]] ≠
      encode [(39, [39]), (105, [105]), (108, [108]), (116, [116]), (256, [39, 108])]
        [([39], [108])] [] ([[105, 116, 39, 108], [108]] : List (List Nat)).flatten := by
  decide

/-! ## Unregistered special tokens (C5) -/

/-- Claim C5 (counterexample): with the vocabulary
`{60 ↦ "<", 115 ↦ "s", 62 ↦ ">"}` (no entry for `"<s>"`), no merges and
the configured special token `"<s>"`, encoding the text `"<s>"` does
*not* surface an internal consistency error: it returns normally,
encoding the token's text as plain text (`"<"`, `"s"`, `">"`), refuting
the claim that such a token is surfaced as an error rather than encoded
as plain text. -/
theorem encode_unregistered_special_cex :
    encode [(60, [60]), (115, [115]), (62, [62])] [] [[60, 115, 62]] [60, 115, 62] =
      some [60, 115, 62] := by
  decide

/-- At the head of exactly the token's own text, the sorted alternation
matches the token itself. -/
theorem firstTokenMatch_self (specials : List (List Nat)) (t : List Nat)
    (ht : t ∈ specials) :
    firstTokenMatch (sortSpecials specials) t = some t := by
  cases hm : firstTokenMatch (sortSpecials specials) t with
  | none =>
    have := List.find?_eq_none.mp hm t ((sortSpecials_mem t specials).mpr ht)
    simp [List.isPrefixOf_iff_prefix] at this
  | some m =>
    have hlong := firstTokenMatch_longest (sortSpecials specials)
      (sortSpecials_sorted specials) t t m ((sortSpecials_mem t specials).mpr ht)
      (List.isPrefixOf_iff_prefix.mpr (List.prefix_refl t)) hm
    have hpre : m <+: t :=
      List.isPrefixOf_iff_prefix.mp (by simpa using List.find?_some hm)
    have : m = t := hpre.eq_of_length (by have := hpre.length_le; omega)
    rw [this]

/-- Splitting exactly one special token's text yields the three
segments `["", token, ""]`, as `re.split` with a capture group does. -/
theorem splitBySpecial_self (specials : List (List Nat)) (t : List Nat)
    (ht : t ∈ specials) (hne : t ≠ []) :
    splitBySpecial (sortSpecials specials) t = [[], t, []] := by
  have hf := firstTokenMatch_self specials t ht
  match t, hne with
  | c :: cs, _ =>
    show splitBySpecialFuel _ ((c :: cs).length + 1) (c :: cs) = _
    have hlen : (c :: cs).length + 1 = cs.length + 1 + 1 := by simp
    rw [hlen]
    simp only [splitBySpecialFuel, findFirstMatch, hf]
    rw [show (c :: cs).drop (c :: cs).length = [] from List.drop_length _]
    simp only [splitBySpecialFuel, findFirstMatch]

/-- Keys of `special_token_ids` are configured special tokens. -/
theorem specialTokenIds_fold_keys (vocab : List (Nat × List Nat)) :
    ∀ (toks : List (List Nat)) (acc : List (List Nat × Nat)) (k : List Nat) (id : Nat),
      lookupAssoc (toks.foldl (fun acc t =>
        match decoderLookup vocab (utf8Encode t) with
        | some id => setAssoc acc t id
        | none => acc) acc) k = some id →
      (∃ id', lookupAssoc acc k = some id') ∨ k ∈ toks := by
  intro toks
  induction toks with
  | nil => intro acc k id h; exact Or.inl ⟨id, h⟩
  | cons t ts ih =>
    intro acc k id h
    rw [List.foldl_cons] at h
    cases hd : decoderLookup vocab (utf8Encode t) with
    | none =>
      rw [hd] at h
      rcases ih acc k id h with h1 | h1
      · exact Or.inl h1
      · exact Or.inr (List.mem_cons_of_mem _ h1)
    | some i =>
      rw [hd] at h
      rcases ih (setAssoc acc t i) k id h with ⟨id', h1⟩ | h1
      · rw [lookupAssoc_setAssoc] at h1
        by_cases hk : k = t
        · exact Or.inr (hk ▸ List.mem_cons_self _ _)
        · rw [if_neg hk] at h1
          exact Or.inl ⟨id', h1⟩
      · exact Or.inr (List.mem_cons_of_mem _ h1)

theorem specialTokenIds_key_mem (vocab : List (Nat × List Nat))
    (specials : List (List Nat)) (k : List Nat) (id : Nat)
    (h : lookupAssoc (specialTokenIds vocab specials) k = some id) : k ∈ specials := by
  rcases specialTokenIds_fold_keys vocab specials [] k id h with ⟨id', h1⟩ | h1
  · cases h1
  · exact h1

/-- Claim C5 (amended): encoding a text equal to a configured special
token whose byte content is *not* in the vocabulary raises no error and
does not drop the token: the token's text is simply encoded as plain
text, exactly as if the tokenizer had been constructed with no special
tokens at all.  (The counterexample shows the concrete non-error
outcome.) -/
theorem encode_unregistered_special_as_plain (vocab : List (Nat × List Nat))
    (merges : List (List Nat × List Nat)) (specials : List (List Nat))
    (t : List Nat) (ht : t ∈ specials)
    (hreg : decoderLookup vocab (utf8Encode t) = none)
    (hnee : [] ∉ specials) :
    encode vocab merges specials t = encode vocab merges [] t := by
  have hne : t ≠ [] := fun h => hnee (h ▸ ht)
  have hspne : specials ≠ [] := by
    intro h
    rw [h] at ht
    cases ht
  have hsplit := splitBySpecial_self specials t ht hne
  have hLHS : encode vocab merges specials t =
      (([[], t, []] : List (List Nat)).mapM (fun seg =>
        match lookupAssoc (specialTokenIds vocab specials) seg with
        | some id => some [id]
        | none => if seg = [] then some []
            else encodePlainSeg vocab merges seg)).map List.flatten := by
    unfold encode
    rw [if_neg hspne, hsplit]
  have hte : lookupAssoc (specialTokenIds vocab specials) t = none :=
    specialTokenIds_none vocab specials t hreg
  have hee : lookupAssoc (specialTokenIds vocab specials) ([] : List Nat) = none := by
    cases he : lookupAssoc (specialTokenIds vocab specials) ([] : List Nat) with
    | none => rfl
    | some id => exact absurd (specialTokenIds_key_mem vocab specials [] id he) hnee
  have hRHS : encode vocab merges [] t =
      (([t] : List (List Nat)).mapM (fun seg =>
        match lookupAssoc ([] : List (List Nat × Nat)) seg with
        | some id => some [id]
        | none => if seg = [] then some []
            else encodePlainSeg vocab merges seg)).map List.flatten := by
    unfold encode
    rfl
  rw [hLHS, hRHS]
  simp only [List.mapM_cons, List.mapM_nil, hte, hee,
    show lookupAssoc ([] : List (List Nat × Nat)) t = none from rfl]
  cases hp : encodePlainSeg vocab merges t with
  | none => simp [hp, hne]
  | some ids => simp [hp, hne]

/-- Witness for `encode_unregistered_special_as_plain` at the
counterexample's tokenizer: encoding `"<s>"` with the unregistered
special token equals encoding it with no special tokens. -/
theorem encode_unregistered_special_as_plain_witness :
    encode [(60, [60]), (115, [115]), (62, [62])] [] [[60, 115, 62]] [60, 115, 62] =
      encode [(60, [60]), (115, [115]), (62, [62])] [] [] [60, 115, 62] :=
  encode_unregistered_special_as_plain [(60, [60]), (115, [115]), (62, [62])] []
    [[60, 115, 62]] [60, 115, 62] (by decide) (by decide) (by decide)

end BPE
